import Mathlib

/-!
# Verification of the dinja rendering core against its specification

Shallow embedding of the Rust sources of the `dinja` repository
(`src/core/src/mdx.rs`, `transform.rs`, `service.rs`, `models.rs`,
`renderer/pool.rs`) and proofs of the specification claims C1-C10.

Modelling conventions:
* Rust `String`/`&str` values are modelled as `List Char` (abbreviated `Str`);
  byte indices of the Rust code coincide with character indices on the
  ASCII-only inputs the guarded-JSX machinery manipulates.
* Rust `HashMap` values are modelled as association lists; where the code
  relies on key uniqueness the theorems carry an explicit `Nodup` hypothesis.
* The external crates (the `regex` engine restricted to the two hard-coded
  patterns, the markdown compiler, the front-matter parser and the embedded
  JavaScript engine) are modelled respectively by a faithful
  backtracking matcher for exactly those patterns, and by explicit oracle
  parameters.
-/

namespace Dinja

/-- Rust strings, modelled as lists of characters. -/
abbrev Str := List Char

/-- ASCII approximation of Rust `char::is_uppercase` on the tag-name
alphabet `[A-Z]` used by the hard-coded patterns. -/
def isUpperAscii (c : Char) : Bool := 'A' ≤ c && c ≤ 'Z'

/-- The character class `[a-zA-Z0-9]` of the hard-coded patterns. -/
def isAsciiAlnum (c : Char) : Bool :=
  ('a' ≤ c && c ≤ 'z') || ('A' ≤ c && c ≤ 'Z') || ('0' ≤ c && c ≤ '9')

/-- ASCII approximation of Rust `char::is_alphabetic`. -/
def isAsciiAlpha (c : Char) : Bool := ('a' ≤ c && c ≤ 'z') || ('A' ≤ c && c ≤ 'Z')

/-- Identifier characters of `validate_export_default`:
`c.is_alphanumeric() || c == '_' || c == '$'` (ASCII approximation). -/
def isIdentChar (c : Char) : Bool := isAsciiAlnum c || c = '_' || c = '$'

/-- Rust `str::trim`, dropping whitespace from both ends. -/
def trimStr (s : Str) : Str :=
  ((s.dropWhile Char.isWhitespace).reverse.dropWhile Char.isWhitespace).reverse

/-- First index at which `needle` occurs as a contiguous substring of the
argument (Rust `str::find`), or `none`. -/
def indexOfSub (needle : Str) : Str → Option Nat
  | [] => if needle = [] then some 0 else none
  | c :: rest =>
    if needle.isPrefixOf (c :: rest) then some 0
    else (indexOfSub needle rest).map (· + 1)

/-- Rust `str::contains` for a string pattern. -/
def containsSub (needle hay : Str) : Bool := (indexOfSub needle hay).isSome

/-- Rust `String::replace`: replace every non-overlapping occurrence of the
(non-empty) pattern `p :: pr`, scanning left to right.  The `fuel`
parameter only makes the recursion structural (each step consumes at least
one character, so `fuel = s.length` never runs out). -/
def replaceAllGo (p : Char) (pr : List Char) (repl : Str) : Nat → Str → Str
  | _, [] => []
  | 0, s => s
  | fuel + 1, c :: rest =>
    if (p :: pr).isPrefixOf (c :: rest) then
      repl ++ replaceAllGo p pr repl fuel (rest.drop pr.length)
    else
      c :: replaceAllGo p pr repl fuel rest

/-- Rust `String::replace` (the placeholder patterns are never empty; an
empty pattern leaves the string unchanged here). -/
def replaceAll (pat repl s : Str) : Str :=
  match pat with
  | [] => s
  | p :: pr => replaceAllGo p pr repl s.length s

/-- Rust `String::replace_range(start..stop, repl)`. -/
def replaceRange (s : Str) (start stop : Nat) (repl : Str) : Str :=
  s.take start ++ repl ++ s.drop stop

/-- The slice `s[start..stop]` of a Rust string. -/
def sliceStr (s : Str) (start stop : Nat) : Str := (s.take stop).drop start

-- ===========================================================================
-- The regex engine, restricted to the two hard-coded JSX patterns
-- ===========================================================================

/-- Atoms of the two hard-coded patterns of `mdx.rs`: a literal character, a
character class, and a greedy Kleene star over a character class (`\s+` is
encoded as a class followed by a star over the same class, which has the
same leftmost-first matching behaviour). -/
inductive Atom where
  | lit : Char → Atom
  | cls : (Char → Bool) → Atom
  | star : (Char → Bool) → Atom

/-- Greedy backtracking: try `f k`, then `f (k-1)`, ..., down to `f 0`,
returning the first success.  This is the candidate order a leftmost-first
(Perl-style, as in the Rust `regex` crate) engine uses for a greedy star. -/
def firstSome (f : Nat → Option Nat) : Nat → Option Nat
  | 0 => f 0
  | k + 1 =>
    match f (k + 1) with
    | some r => some r
    | none => firstSome f k

/-- Backtracking matcher for a sequence of atoms anchored at the start of
`s`; returns the number of characters consumed by the leftmost-first
(greedy, highest-priority) match, if any.  Faithful to the Rust `regex`
crate's leftmost-first semantics on star-height-one patterns without
alternation, which is all the two hard-coded patterns use. -/
def matchSeq : List Atom → Str → Option Nat
  | [], _ => some 0
  | .lit c :: ps, s =>
    match s with
    | [] => none
    | d :: rest => if d = c then (matchSeq ps rest).map (· + 1) else none
  | .cls p :: ps, s =>
    match s with
    | [] => none
    | d :: rest => if p d then (matchSeq ps rest).map (· + 1) else none
  | .star p :: ps, s =>
    firstSome (fun k => (matchSeq ps (s.drop k)).map (· + k)) (s.takeWhile p).length

/-- Leftmost match of the pattern in `s`: `some (i, n)` means the earliest
match starts at offset `i` (relative to the original search start) and spans
`n` characters. -/
def findFirst (pats : List Atom) : Str → Nat → Option (Nat × Nat)
  | [], _ => none
  | s@(_ :: rest), i =>
    match matchSeq pats s with
    | some n => some (i, n)
    | none => findFirst pats rest (i + 1)

/-- All non-overlapping matches in increasing position order, resuming after
the end of each match (Rust `Regex::find_iter`).  The two hard-coded
patterns can never match the empty string; the zero-length guard only
exists because the fuel argument (which makes the recursion structural)
must strictly decrease.  Every continuing step consumes `j + n ≥ 1`
characters, so `fuel = s.length` never runs out. -/
def findAllFrom (pats : List Atom) : Nat → Str → Nat → List (Nat × Nat)
  | _, [], _ => []
  | 0, _, _ => []
  | fuel + 1, s, base =>
    match findFirst pats s 0 with
    | none => []
    | some (j, n) =>
      if n = 0 then [(base + j, n)]
      else (base + j, n) :: findAllFrom pats fuel (s.drop (j + n)) (base + j + n)

def findAll (pats : List Atom) (s : Str) : List (Nat × Nat) := findAllFrom pats s.length s 0

/-- `SELF_CLOSING_JSX_PATTERN`:  `<([A-Z][a-zA-Z0-9]*)\s+[^>]*\{[^}]*\}[^>]*/\s*>` -/
def selfClosingPattern : List Atom :=
  [.lit '<', .cls isUpperAscii, .star isAsciiAlnum,
   .cls Char.isWhitespace, .star Char.isWhitespace,
   .star (fun c => c ≠ '>'), .lit '{', .star (fun c => c ≠ '}'), .lit '}',
   .star (fun c => c ≠ '>'), .lit '/', .star Char.isWhitespace, .lit '>']

/-- `OPENING_JSX_PATTERN`:  `<([A-Z][a-zA-Z0-9]*)\s+[^>]*\{[^}]*\}[^>]*>` -/
def openingPattern : List Atom :=
  [.lit '<', .cls isUpperAscii, .star isAsciiAlnum,
   .cls Char.isWhitespace, .star Char.isWhitespace,
   .star (fun c => c ≠ '>'), .lit '{', .star (fun c => c ≠ '}'), .lit '}',
   .star (fun c => c ≠ '>'), .lit '>']

/-- Capture group 1 of the two patterns: the tag name `[A-Z][a-zA-Z0-9]*`
of a match whose text starts with `<`.  Because the group is followed by
`\s+` (which matches no alphanumeric character), the greedy group always
captures the maximal alphanumeric run after the `<`. -/
def tagNameOf (matchText : Str) : Str := (matchText.drop 1).takeWhile isAsciiAlnum

-- ===========================================================================
-- JSX Guard (`mdx.rs`): protect / restore
-- ===========================================================================

def MAX_JSX_PLACEHOLDERS : Nat := 1000

def MAX_JSX_NESTING_DEPTH : Nat := 100

/-- The placeholder token `<!--JSX:N-->`. -/
def placeholderFor (n : Nat) : Str := ("<!--JSX:" ++ toString n ++ "-->").data

/-- Phase 1 of `protect_jsx_components`: the matches of
`SELF_CLOSING_JSX_PATTERN` on the original content, processed in
decreasing-position order; each is replaced by a placeholder after the
positional re-validation the Rust code performs.  The placeholder map is an
association list `counter value -> original text`. -/
def phase1Loop (orig : Str) :
    List (Nat × Nat) → Str → List (Nat × Str) → Nat → Str × List (Nat × Str) × Nat
  | [], result, ph, counter => (result, ph, counter)
  | (start, len) :: ms, result, ph, counter =>
    if counter ≥ MAX_JSX_PLACEHOLDERS then (result, ph, counter)
    else
      let jsx := sliceStr orig start (start + len)
      if start < result.length ∧ start + len ≤ result.length ∧
          sliceStr result start (start + len) = jsx then
        phase1Loop orig ms (replaceRange result start (start + len) (placeholderFor counter))
          (ph ++ [(counter, jsx)]) (counter + 1)
      else
        phase1Loop orig ms result ph counter

/-- `find_matching_close_tag`'s scanning loop over
`search_region = content[start..]`.  `pos`, `nesting` and `depth` are the
loop state; the returned pair is (result, final value of the `depth`
accumulator that the Rust code threads by mutable reference).  The `fuel`
argument makes the recursion structural; every continuing iteration
advances `pos` by at least one and requires `pos < region.length`, so
`fuel = region.length + 1` iterations always suffice. -/
def fmctLoop (region tag : Str) (start : Nat) :
    Nat → Nat → Nat → Nat → Option Nat × Nat
  | 0, _pos, _nesting, depth => (none, depth)
  | fuel + 1, pos, nesting, depth =>
  if 0 < nesting ∧ pos < region.length then
    let openPat : Str := '<' :: tag
    let closePat : Str := '<' :: '/' :: (tag ++ ['>'])
    match indexOfSub openPat (region.drop pos), indexOfSub closePat (region.drop pos) with
    | some o, some c =>
      if o < c then
        -- nested opening tag found first
        let nesting' := nesting + 1
        let depth' := max depth nesting'
        if nesting' > MAX_JSX_NESTING_DEPTH then (none, depth')
        else fmctLoop region tag start fuel (pos + o + openPat.length) nesting' depth'
      else
        -- closing tag found first
        let nesting' := nesting - 1
        if nesting' = 0 then (some (start + pos + c), depth)
        else if nesting' > MAX_JSX_NESTING_DEPTH then (none, depth)
        else fmctLoop region tag start fuel (pos + c + closePat.length) nesting' depth
    | none, some c =>
      let nesting' := nesting - 1
      if nesting' = 0 then (some (start + pos + c), depth)
      else if nesting' > MAX_JSX_NESTING_DEPTH then (none, depth)
      else fmctLoop region tag start fuel (pos + c + closePat.length) nesting' depth
    | some o, none =>
      let nesting' := nesting + 1
      let depth' := max depth nesting'
      if nesting' > MAX_JSX_NESTING_DEPTH then (none, depth')
      else fmctLoop region tag start fuel (pos + o + openPat.length) nesting' depth'
    | none, none => (none, depth)
  else (none, depth)

/-- `find_matching_close_tag(content, start, tag_name, closing_tag, &mut depth)`:
searches `content[start..]` for the closing tag balancing one already-open
`tag`; returns the absolute position of that closing tag (if found) and the
updated depth accumulator. -/
def find_matching_close_tag (content : Str) (start : Nat) (tag : Str) (depth : Nat) :
    Option Nat × Nat :=
  fmctLoop (content.drop start) tag start ((content.drop start).length + 1) 0 1 depth

/-- One pass of the `protect_jsx_with_children` loop body followed by the
remaining iterations; `fuel` counts the remaining iterations of the
`max_iterations = MAX_JSX_PLACEHOLDERS` bound. -/
def protectChildrenLoop :
    Nat → Str → List (Nat × Str) → Nat → Nat → Str × List (Nat × Str) × Nat
  | 0, content, ph, counter, _depth => (content, ph, counter)
  | fuel + 1, content, ph, counter, depth =>
    if counter ≥ MAX_JSX_PLACEHOLDERS then (content, ph, counter)
    else
      match findFirst openingPattern content 0 with
      | none => (content, ph, counter)
      | some (pos, len) =>
        let openingTag := sliceStr content pos (pos + len)
        let tagName := tagNameOf openingTag
        match indexOfSub openingTag content with
        | none => (content, ph, counter)
        | some openPos =>
          let searchStart := openPos + openingTag.length
          match find_matching_close_tag content searchStart tagName depth with
          | (some closePos, depth') =>
            if depth' > MAX_JSX_NESTING_DEPTH then (content, ph, counter)
            else
              let closeLen := tagName.length + 3
              let fullEnd := closePos + closeLen
              if fullEnd > content.length then (content, ph, counter)
              else
                let fullJsx := sliceStr content openPos fullEnd
                protectChildrenLoop fuel
                  (replaceRange content openPos fullEnd (placeholderFor counter))
                  (ph ++ [(counter, fullJsx)]) (counter + 1) depth'
          | (none, _depth') =>
            -- no matching close tag: the malformed JSX is left unprotected
            (content, ph, counter)

/-- `protect_jsx_with_children(content, placeholders, counter)`. -/
def protect_jsx_with_children (content : Str) (ph : List (Nat × Str)) (counter : Nat) :
    Str × List (Nat × Str) × Nat :=
  protectChildrenLoop MAX_JSX_PLACEHOLDERS content ph counter 0

/-- `protect_jsx_components(content)`: phase 1 protects the self-closing
usages (matches taken on the original content, replaced in reverse
position order), phase 2 protects usages with children. -/
def protect_jsx_components (content : Str) : Str × List (Nat × Str) :=
  if content = [] then ([], [])
  else
    let ms := findAll selfClosingPattern content
    let r1 := phase1Loop content ms.reverse content [] 0
    let r2 := protect_jsx_with_children r1.1 r1.2.1 r1.2.2
    (r2.1, r2.2.1)

/-- The single restoration pass of `restore_jsx_components`, over the
placeholder list already sorted by index. -/
def restoreLoop : List (Nat × Str) → Str → Str
  | [], result => result
  | (n, jsx) :: rest, result =>
    let p := placeholderFor n
    restoreLoop rest (if containsSub p result then replaceAll p jsx result else result)

/-- Ascending-by-index insertion used to model the stable
`sort_by_key` over the numeric suffix of each placeholder token (the map
always stores `n ↦ placeholderFor n`, so the parsed key is `n` itself). -/
def insByIndex (x : Nat × Str) : List (Nat × Str) → List (Nat × Str)
  | [] => [x]
  | y :: ys => if x.1 ≤ y.1 then x :: y :: ys else y :: insByIndex x ys

def sortByIndex (l : List (Nat × Str)) : List (Nat × Str) := l.foldr insByIndex []

/-- `restore_jsx_components(content, placeholders)`: placeholders are
processed in ascending numeric order; each one still present in the content
is replaced (all occurrences) by its original text. -/
def restore_jsx_components (content : Str) (ph : List (Nat × Str)) : Str :=
  if ph = [] then content
  else restoreLoop (sortByIndex ph) content

-- ===========================================================================
-- `unwrap_fragment` (`mdx.rs`)
-- ===========================================================================

/-- Case-insensitive literal match (the `(?i)` flag of `FRAGMENT_PATTERN`;
the pattern letters are ASCII, for which `Char.toLower` agrees with the
regex crate's case folding). -/
def matchCaseInsensitive : Str → Str → Option Str
  | [], s => some s
  | _ :: _, [] => none
  | p :: pr, c :: rest =>
    if c.toLower = p.toLower then matchCaseInsensitive pr rest else none

/-- Attempt to match `/?Fragment[^>]*>` (the part of `FRAGMENT_PATTERN`
after the initial `<`) at the start of `rest`; returns the number of
characters of `rest` the tag consumes. -/
def tryFragTagAfterLt (rest : Str) : Option Nat :=
  let slashed : Nat × Str :=
    match rest with
    | '/' :: r => (1, r)
    | _ => (0, rest)
  match matchCaseInsensitive "fragment".data slashed.2 with
  | none => none
  | some r2 =>
    let k := (r2.takeWhile (fun c => c ≠ '>')).length
    match r2.drop k with
    | '>' :: _ => some (slashed.1 + 8 + k + 1)
    | _ => none

/-- `FRAGMENT_PATTERN.replace_all(s, "")`: a single left-to-right pass
removing every (possibly attributed, case-insensitive) Fragment tag.
`fuel = s.length` makes the recursion structural; every step consumes at
least one character. -/
def removeFragTags : Nat → Str → Str
  | _, [] => []
  | 0, s => s
  | fuel + 1, c :: rest =>
    if c = '<' then
      match tryFragTagAfterLt rest with
      | some n => removeFragTags fuel (rest.drop n)
      | none => c :: removeFragTags fuel rest
    else c :: removeFragTags fuel rest

/-- `unwrap_fragment(html)`: trim, then strip every Fragment tag. -/
def unwrap_fragment (html : Str) : Str :=
  let trimmed := trimStr html
  removeFragTags trimmed.length trimmed

/-- "There is no Fragment-tag occurrence anywhere in `s`": at every
position, either the character is not `<` or no `/?Fragment[^>]*>` match
follows it. -/
def FragTagFree (s : Str) : Prop :=
  ∀ i, i < s.length →
    (s.drop i).head? = some '<' → tryFragTagAfterLt (s.drop (i + 1)) = none

instance (s : Str) : Decidable (FragTagFree s) := by
  unfold FragTagFree; infer_instance

-- ===========================================================================
-- Export-shape validation (`transform.rs`)
-- ===========================================================================

/-- The first segment of Rust's
`split(|c| !(c.is_alphanumeric() || c == '_' || c == '$')).next().unwrap_or("")`:
the maximal leading run of identifier characters. -/
def firstToken (s : Str) : Str := s.takeWhile isIdentChar

/-- `validate_export_default(rest)`: accepts only a synchronous function
declaration named exactly `Component`; every other shape is rejected with
the distinguishing label carried by `MdxError::InvalidExportDefault`
(modelled as the `Except` error string). -/
def looksLikeIdentifier (identifier : Str) : Bool :=
  match identifier.head? with
  | some c => isAsciiAlpha c || c = '_' || c = '$'
  | none => false

def validate_export_default (rest : Str) : Except Str Unit :=
  if (trimStr rest).head? = some '(' then
    .error "arrow function".data
  else if "async (".data.isPrefixOf (trimStr rest) then
    .error "async arrow function".data
  else if "async function".data.isPrefixOf (trimStr rest) then
    .error "async function".data
  else if "class ".data.isPrefixOf (trimStr rest) then
    .error ("class ".data ++ firstToken ((trimStr rest).drop 6))
  else if "function ".data.isPrefixOf (trimStr rest) then
    if firstToken ((trimStr rest).drop 9) = "Component".data then .ok ()
    else .error ("function ".data ++ firstToken ((trimStr rest).drop 9))
  else
    if firstToken (trimStr rest) ≠ [] ∧ looksLikeIdentifier (firstToken (trimStr rest)) then
      .error (firstToken (trimStr rest))
    else
      .error "expression".data

/-- `strip_export_statements(code)`: strips a leading `export default `
(after validating the export shape) or a leading `export `. -/
def strip_export_statements (code : Str) : Except Str Str :=
  let trimmed := trimStr code
  if "export default ".data.isPrefixOf trimmed then
    match validate_export_default (trimmed.drop 15) with
    | .ok _ => .ok (trimmed.drop 15)
    | .error e => .error e
  else if "export ".data.isPrefixOf trimmed then
    .ok (trimmed.drop 7)
  else .ok code

-- ===========================================================================
-- JSON values (`serde_json::Value`)
-- ===========================================================================

/-- `serde_json::Value`; numbers are modelled as integers (no claim depends
on float formatting) and objects as association lists in field order. -/
inductive Json where
  | null : Json
  | bool : Bool → Json
  | num : Int → Json
  | str : String → Json
  | arr : List Json → Json
  | obj : List (String × Json) → Json

/-- JSON string escaping of the common escapes; used only as the
(injective-on-our-inputs) serialization key. -/
def escChar (c : Char) : String :=
  if c = '"' then "\\\""
  else if c = '\\' then "\\\\"
  else if c = '\n' then "\\n"
  else if c = '\t' then "\\t"
  else if c = '\r' then "\\r"
  else String.singleton c

def jsonQuote (s : String) : String :=
  "\"" ++ String.join (s.data.map escChar) ++ "\""

/-- `serde_json::to_string`. -/
def Json.serialize : Json → String
  | .null => "null"
  | .bool true => "true"
  | .bool false => "false"
  | .num n => toString n
  | .str s => jsonQuote s
  | .arr xs =>
    "[" ++ String.intercalate "," (xs.attach.map fun x => Json.serialize x.1) ++ "]"
  | .obj fs =>
    "\x7b" ++
      String.intercalate ","
        (fs.attach.map fun p => jsonQuote p.1.1 ++ ":" ++ Json.serialize p.1.2) ++
      "\x7d"
termination_by j => sizeOf j
decreasing_by
  all_goals
    first
    | (have h0 := List.sizeOf_lt_of_mem x.2
       simp only [Json.arr.sizeOf_spec]
       omega)
    | (have h1 := List.sizeOf_lt_of_mem p.2
       obtain ⟨⟨a, b⟩, hmem⟩ := p
       simp only [Prod.mk.sizeOf_spec] at h1 ⊢
       simp only [Json.obj.sizeOf_spec]
       omega)

/-- `serde_json::Map::get` (field lookup; serde's map has unique keys,
modelled by first-match lookup). -/
def lookupField (fs : List (String × Json)) (k : String) : Option Json :=
  (fs.find? (fun p => p.1 == k)).map (·.2)

-- ===========================================================================
-- Schema extraction (`extract_schema_from_json` / `traverse_json_tree`)
-- ===========================================================================

/-- Boolean lexicographic order on strings (by character order); used to
model the final `sort()` calls.  (The `String` order of the Lean core
library does not reduce in the kernel, hence this executable copy.) -/
def strLe : Str → Str → Bool
  | [], _ => true
  | _ :: _, [] => false
  | a :: as, b :: bs => if a < b then true else if b < a then false else strLe as bs

/-- The sorting relation on `String` used by the schema extraction model. -/
def strRel (a b : String) : Prop := strLe a.data b.data = true

instance : DecidableRel strRel := fun _ _ => by unfold strRel; infer_instance

/-- Rust `Vec::sort()` on strings: a stable sort by `strRel`. -/
def sortStrings (l : List String) : List String := List.insertionSort strRel l

/-- `HashSet::insert` on a set modelled as a duplicate-free list in
insertion order. -/
def insStr (x : String) (l : List String) : List String :=
  if x ∈ l then l else l ++ [x]

/-- The node-type filter of `traverse_json_tree`: a non-empty tag whose
first character is uppercase, excluding the built-in `Fragment`. -/
def isComponentTag (tag : String) : Bool :=
  match tag.data with
  | [] => false
  | c :: _ => isUpperAscii c && tag ≠ "Fragment"

/-- Pattern generalization: `v-on:click ↦ v-on:*` (key contains a colon,
keep everything before the first colon), otherwise `prefix*`. -/
def genPattern (pre k : String) : String :=
  if k.contains ':' then k.takeWhile (fun c => c ≠ ':') ++ ":*"
  else pre ++ "*"

/-- The four mutable `HashSet`s threaded through the traversal (values are
kept in their serialized form, exactly as the Rust code stores them for
deduplication). -/
structure TraverseState where
  components : List String
  keys : List String
  patterns : List String
  values : List String

/-- The attribute loop of `traverse_json_tree`: for each attribute, the
first matching configured prefix (if any) records the key, its generalized
pattern and its serialized value. -/
def attrsLoop (prefixes : List String) : List (String × Json) → TraverseState → TraverseState
  | [], st => st
  | (k, v) :: rest, st =>
    let st' :=
      match prefixes.find? (fun p => p.isPrefixOf k) with
      | none => st
      | some p =>
        { st with
          keys := insStr k st.keys
          patterns := insStr (genPattern p k) st.patterns
          values := insStr (Json.serialize v) st.values }
    attrsLoop prefixes rest st'

/-- The `type` check of `traverse_json_tree`: record a qualifying
component tag. -/
def typeStep (fields : List (String × Json)) (st : TraverseState) : TraverseState :=
  match lookupField fields "type" with
  | some (.str tag) =>
    if isComponentTag tag then { st with components := insStr tag st.components }
    else st
  | _ => st

/-- The `attributes` check of `traverse_json_tree`: extract directives
from an object-valued `attributes` field. -/
def attrStep (prefixes : List String) (fields : List (String × Json))
    (st : TraverseState) : TraverseState :=
  match lookupField fields "attributes" with
  | some (.obj attrs) => attrsLoop prefixes attrs st
  | _ => st

mutual

/-- `traverse_json_tree(node, prefixes, ...)`: record a qualifying `type`
tag, process `attributes` for directives, recurse into `children`, then
recurse into every object value (resp. every array element). -/
def traverse_json_tree (prefixes : List String) (node : Json) (st : TraverseState) :
    TraverseState :=
  match node with
  | .obj fields =>
    let st2 := attrStep prefixes fields (typeStep fields st)
    let st3 :=
      match hch : lookupField fields "children" with
      | some ch => traverse_json_tree prefixes ch st2
      | none => st2
    traverseFields prefixes fields st3
  | .arr xs => traverseList prefixes xs st
  | _ => st
termination_by sizeOf node
decreasing_by
  · -- the `children` recursion: the child is a field value of the object
    simp only [lookupField, Option.map_eq_some'] at hch
    obtain ⟨⟨a, b⟩, hfind, hb⟩ := hch
    have hmem := List.mem_of_find?_eq_some hfind
    have hlt := List.sizeOf_lt_of_mem hmem
    simp only [Prod.mk.sizeOf_spec] at hlt
    subst hb
    simp only [Json.obj.sizeOf_spec]
    omega
  · simp only [Json.obj.sizeOf_spec]; omega
  · simp only [Json.arr.sizeOf_spec]; omega

def traverseList (prefixes : List String) : List Json → TraverseState → TraverseState
  | [], st => st
  | x :: rest, st => traverseList prefixes rest (traverse_json_tree prefixes x st)
termination_by l _ => sizeOf l
decreasing_by
  all_goals simp only [List.cons.sizeOf_spec]
  all_goals omega

def traverseFields (prefixes : List String) :
    List (String × Json) → TraverseState → TraverseState
  | [], st => st
  | (_, v) :: rest, st => traverseFields prefixes rest (traverse_json_tree prefixes v st)
termination_by l _ => sizeOf l
decreasing_by
  all_goals simp only [List.cons.sizeOf_spec, Prod.mk.sizeOf_spec]
  all_goals omega

end

/-- The result of `extract_schema_from_json`, with directive values kept in
their serialized (dedup-key) form. -/
structure SchemaResult where
  components : List String
  keys : List String
  patterns : List String
  values : List String

/-- `extract_schema_from_json(json_tree, directive_prefixes)` on an
already-parsed tree: traverse, then sort each collected set. -/
def extract_schema_from_json (tree : Json) (directive_prefixes : Option (List String)) :
    SchemaResult :=
  let prefixes := directive_prefixes.getD []
  let st := traverse_json_tree prefixes tree ⟨[], [], [], []⟩
  { components := sortStrings st.components
    keys := sortStrings st.keys
    patterns := sortStrings st.patterns
    values := sortStrings st.values }

/-- Sub-tree relation on JSON values: `SubJson t j` holds when `t` is `j`
itself or a node reachable through object fields and array elements.  Used
to state which nodes the traversal visits. -/
inductive SubJson : Json → Json → Prop where
  | refl (j : Json) : SubJson j j
  | objField {t : Json} {fs : List (String × Json)} {k : String} {v : Json} :
      (k, v) ∈ fs → SubJson t v → SubJson t (Json.obj fs)
  | arrElem {t x : Json} {xs : List Json} :
      x ∈ xs → SubJson t x → SubJson t (Json.arr xs)

/-- `tag` occurs as a qualifying component type somewhere in `tree`. -/
def CompOccurs (tree : Json) (tag : String) : Prop :=
  ∃ fs, SubJson (Json.obj fs) tree ∧
    lookupField fs "type" = some (Json.str tag) ∧ isComponentTag tag = true

/-- An attribute `(k, v)` of some node of `tree` whose key matches a
configured prefix, with `p` the first matching prefix. -/
def DirOccurs (tree : Json) (prefixes : List String) (p k : String) (v : Json) : Prop :=
  ∃ fs attrs, SubJson (Json.obj fs) tree ∧
    lookupField fs "attributes" = some (Json.obj attrs) ∧
    (k, v) ∈ attrs ∧ prefixes.find? (fun q => q.isPrefixOf k) = some p

/-- Relates a traversal state `st` to its successor `st'`: each collected
set gains exactly the elements described by the corresponding occurrence
predicate, and stays duplicate-free. -/
def StepChar (occC occK occP occV : String → Prop) (st st' : TraverseState) : Prop :=
  (∀ x, x ∈ st'.components ↔ x ∈ st.components ∨ occC x) ∧
  (∀ x, x ∈ st'.keys ↔ x ∈ st.keys ∨ occK x) ∧
  (∀ x, x ∈ st'.patterns ↔ x ∈ st.patterns ∨ occP x) ∧
  (∀ x, x ∈ st'.values ↔ x ∈ st.values ∨ occV x) ∧
  (st.components.Nodup → st'.components.Nodup) ∧
  (st.keys.Nodup → st'.keys.Nodup) ∧
  (st.patterns.Nodup → st'.patterns.Nodup) ∧
  (st.values.Nodup → st'.values.Nodup)

instance : IsTotal String strRel :=
  ⟨by
    have key : ∀ x y : Str, strLe x y = true ∨ strLe y x = true := by
      intro x
      induction x with
      | nil => intro y; left; rfl
      | cons a as ih =>
        intro y
        cases y with
        | nil => right; rfl
        | cons b bs =>
          by_cases hab : a < b
          · left; simp [strLe, hab]
          · by_cases hba : b < a
            · right; simp [strLe, hba]
            · rcases ih bs with h | h
              · left; simp [strLe, hab, hba, h]
              · right; simp [strLe, hab, hba, h]
    exact fun a b => key a.data b.data⟩

instance : IsTrans String strRel :=
  ⟨by
    have key : ∀ x y z : Str, strLe x y = true → strLe y z = true → strLe x z = true := by
      intro x
      induction x with
      | nil => intro y z _ _; rfl
      | cons a as ih =>
        intro y z hxy hyz
        cases y with
        | nil => simp [strLe] at hxy
        | cons b bs =>
          cases z with
          | nil => simp [strLe] at hyz
          | cons c cs =>
            simp only [strLe] at hxy hyz ⊢
            rcases lt_trichotomy a b with h1 | h1 | h1
            · rcases lt_trichotomy b c with h2 | h2 | h2
              · simp [lt_trans h1 h2]
              · subst h2; simp [h1]
              · rw [if_neg (lt_asymm h2), if_pos h2] at hyz
                exact absurd hyz (by simp)
            · subst h1
              rw [if_neg (lt_irrefl a), if_neg (lt_irrefl a)] at hxy
              rcases lt_trichotomy a c with h2 | h2 | h2
              · simp [h2]
              · subst h2
                rw [if_neg (lt_irrefl a), if_neg (lt_irrefl a)] at hyz
                simp [lt_irrefl, ih bs cs hxy hyz]
              · rw [if_neg (lt_asymm h2), if_pos h2] at hyz
                exact absurd hyz (by simp)
            · rw [if_neg (lt_asymm h1), if_pos h1] at hxy
              exact absurd hxy (by simp)
    exact fun a b c => key a.data b.data c.data⟩

-- ===========================================================================
-- Data model (`models.rs`)
-- ===========================================================================

inductive OutputFormat where
  | html | javascript | schema | json
deriving DecidableEq

structure RenderSettings where
  output : OutputFormat
  minify : Bool

structure ComponentDefinition where
  name : Option String
  docs : Option String
  args : Option Json
  code : String

structure RenderedMdx where
  metadata : Json
  output : Option String

structure ResourceLimits where
  max_batch_size : Nat
  max_mdx_content_size : Nat
  max_component_code_size : Nat

def ResourceLimits.default : ResourceLimits :=
  { max_batch_size := 1000
    max_mdx_content_size := 10 * 1024 * 1024
    max_component_code_size := 1024 * 1024 }

def MAX_RECOMMENDED_BATCH_SIZE : Nat := 100000

def MAX_RECOMMENDED_MDX_CONTENT_SIZE : Nat := 100 * 1024 * 1024

/-- `ResourceLimits::validate`. -/
def ResourceLimits.validate (l : ResourceLimits) : Except String Unit :=
  if l.max_batch_size = 0 then
    .error "max_batch_size must be greater than 0"
  else if l.max_mdx_content_size = 0 then
    .error "max_mdx_content_size must be greater than 0"
  else if l.max_component_code_size = 0 then
    .error "max_component_code_size must be greater than 0"
  else if l.max_batch_size > MAX_RECOMMENDED_BATCH_SIZE then
    .error ("max_batch_size (" ++ toString l.max_batch_size ++
      ") exceeds recommended maximum of " ++ toString MAX_RECOMMENDED_BATCH_SIZE)
  else if l.max_mdx_content_size > MAX_RECOMMENDED_MDX_CONTENT_SIZE then
    .error ("max_mdx_content_size (" ++ toString l.max_mdx_content_size ++
      ") exceeds recommended maximum of " ++ toString MAX_RECOMMENDED_MDX_CONTENT_SIZE ++
      " bytes (100 MB)")
  else .ok ()

structure NamedMdxBatchInput where
  settings : RenderSettings
  mdx : List (String × String)
  components : Option (List (String × ComponentDefinition))

-- ===========================================================================
-- Service layer (`service.rs`)
-- ===========================================================================

structure RenderServiceConfig where
  static_dir : String
  max_cached_renderers : Nat
  resource_limits : ResourceLimits

/-- `RenderServiceConfig::validate`; the two filesystem probes on
`static_dir` are oracle booleans. -/
def RenderServiceConfig.validate (c : RenderServiceConfig)
    (staticDirExists staticDirIsDir : Bool) : Except String Unit :=
  if staticDirExists = false then
    .error ("Static directory does not exist: " ++ c.static_dir)
  else if staticDirIsDir = false then
    .error ("Static directory path is not a directory: " ++ c.static_dir)
  else if c.max_cached_renderers = 0 then
    .error "max_cached_renderers must be greater than 0"
  else if c.max_cached_renderers > 1000 then
    .error ("max_cached_renderers (" ++ toString c.max_cached_renderers ++
      ") is unreasonably large, maximum recommended is 1000")
  else
    c.resource_limits.validate

structure RenderService where
  config : RenderServiceConfig

/-- `RenderService::new`: validate the configuration, then construct the
service (pool construction and best-effort warming have no observable
effect on the construction result). -/
def RenderService.new (config : RenderServiceConfig)
    (staticDirExists staticDirIsDir : Bool) : Except String RenderService :=
  match config.validate staticDirExists staticDirIsDir with
  | .error e => .error e
  | .ok _ => .ok { config := config }

inductive RenderBatchError where
  | forbidden : String → RenderBatchError
  | invalidRequest : String → RenderBatchError
  | internal : String → RenderBatchError

inductive FileRenderStatus where
  | success | failed
deriving DecidableEq

structure BatchError where
  file : String
  message : String

structure FileRenderOutcome where
  status : FileRenderStatus
  result : Option RenderedMdx
  error : Option String

def FileRenderOutcome.ofSuccess (r : RenderedMdx) : FileRenderOutcome :=
  { status := .success, result := some r, error := none }

def FileRenderOutcome.ofFailure (message : String) (fallback : RenderedMdx) :
    FileRenderOutcome :=
  { status := .failed, result := some fallback, error := some message }

structure BatchRenderOutcome where
  total : Nat
  succeeded : Nat
  failed : Nat
  errors : List BatchError
  files : List (String × FileRenderOutcome)

/-- `BatchRenderOutcome::new`. -/
def BatchRenderOutcome.new (files : List (String × FileRenderOutcome))
    (errors : List BatchError) (succeeded failed : Nat) : BatchRenderOutcome :=
  { total := succeeded + failed, succeeded := succeeded, failed := failed
    errors := errors, files := files }

/-- `BatchRenderOutcome::empty`. -/
def BatchRenderOutcome.empty : BatchRenderOutcome :=
  { total := 0, succeeded := 0, failed := 0, errors := [], files := [] }

def BatchRenderOutcome.is_all_success (o : BatchRenderOutcome) : Bool :=
  o.failed = 0

def BatchRenderOutcome.is_complete_failure (o : BatchRenderOutcome) : Bool :=
  0 < o.total ∧ o.succeeded = 0

/-- `create_error_response(error)`: the model's render oracle yields one
message, standing for both the display form and the `{:#}` chain form of
the `anyhow` error. -/
def create_error_response (message : String) : RenderedMdx :=
  { metadata := Json.obj [("error", Json.str message), ("error_chain", Json.str message)]
    output := some ("<p>Error rendering MDX: " ++ message ++ "</p>") }

/-- `HashMap::insert`. -/
def mapInsert {β : Type} (m : List (String × β)) (k : String) (v : β) :
    List (String × β) :=
  if m.any (fun p => p.1 == k) then
    m.map (fun p => if p.1 == k then (k, v) else p)
  else m ++ [(k, v)]

/-- `RenderService::validate_resource_limits`: batch size, then each
document's size, then each referenced component's code size; the first
violation aborts with an `InvalidRequest` naming the resource and the
measured size.  (Sizes are character counts, standing for Rust's byte
counts.) -/
def validate_resource_limits (limits : ResourceLimits)
    (mdx : List (String × String))
    (components : Option (List (String × ComponentDefinition))) :
    Except RenderBatchError Unit :=
  if mdx.length > limits.max_batch_size then
    .error (.invalidRequest ("Batch size " ++ toString mdx.length ++
      " exceeds maximum allowed " ++ toString limits.max_batch_size))
  else
    match mdx.find? (fun nc => nc.2.length > limits.max_mdx_content_size) with
    | some nc =>
      .error (.invalidRequest ("MDX content for \x27" ++ nc.1 ++ "\x27 is " ++
        toString nc.2.length ++ " bytes, exceeds maximum allowed " ++
        toString limits.max_mdx_content_size ++ " bytes"))
    | none =>
      match components with
      | some comps =>
        match comps.find? (fun nc => nc.2.code.length > limits.max_component_code_size) with
        | some nc =>
          .error (.invalidRequest ("Component \x27" ++ nc.1 ++ "\x27 code is " ++
            toString nc.2.code.length ++ " bytes, exceeds maximum allowed " ++
            toString limits.max_component_code_size ++ " bytes"))
        | none => .ok ()
      | none => .ok ()

/-- A batch exceeds the resource limits when the document count, some
document's size, or some referenced component's code size is over the
respective limit. -/
def ExceedsResourceLimits (limits : ResourceLimits)
    (mdx : List (String × String))
    (components : Option (List (String × ComponentDefinition))) : Prop :=
  mdx.length > limits.max_batch_size ∨
  (∃ nc ∈ mdx, nc.2.length > limits.max_mdx_content_size) ∨
  (∃ comps, components = some comps ∧
    ∃ nc ∈ comps, nc.2.code.length > limits.max_component_code_size)

/-- The sequential per-document loop of `render_batch`; `render` is the
oracle standing for `mdx_to_html_with_frontmatter` against the leased
renderer. -/
def renderLoop (render : String → String → Except String RenderedMdx) :
    List (String × String) → List (String × FileRenderOutcome) → List BatchError →
      Nat → Nat → List (String × FileRenderOutcome) × List BatchError × Nat × Nat
  | [], files, errors, s, f => (files, errors, s, f)
  | (name, src) :: rest, files, errors, s, f =>
    match render name src with
    | .ok rendered =>
      renderLoop render rest (mapInsert files name (FileRenderOutcome.ofSuccess rendered))
        errors (s + 1) f
    | .error msg =>
      renderLoop render rest
        (mapInsert files name (FileRenderOutcome.ofFailure msg (create_error_response msg)))
        (errors ++ [{ file := name, message := msg }]) s (f + 1)

/-- `profile_for_request`: every output format maps to the single `Engine`
profile. -/
def profile_for_request (_format : OutputFormat) : Except RenderBatchError Unit :=
  .ok ()

/-- `RenderService::render_batch`: validate resource limits, resolve the
profile, short-circuit the empty batch, check out one context (oracle
`checkout`), then render every document sequentially, collecting
per-document successes and failures. -/
def render_batch (limits : ResourceLimits) (checkout : Except String Unit)
    (render : String → String → Except String RenderedMdx)
    (input : NamedMdxBatchInput) : Except RenderBatchError BatchRenderOutcome :=
  match validate_resource_limits limits input.mdx input.components with
  | .error e => .error e
  | .ok _ =>
    match profile_for_request input.settings.output with
    | .error e => .error e
    | .ok _ =>
      if input.mdx = [] then .ok BatchRenderOutcome.empty
      else
        match checkout with
        | .error e => .error (.internal e)
        | .ok _ =>
          let r := renderLoop render input.mdx [] [] 0 0
          .ok (BatchRenderOutcome.new r.1 r.2.1 r.2.2.1 r.2.2.2)

-- ===========================================================================
-- Renderer pool (`renderer/pool.rs`)
-- ===========================================================================

/-- `CacheEntry`: the bounded deque of cached renderers, front at the head
of the list. -/
structure CacheEntry (α : Type) where
  renderers : List α

def CacheEntry.empty {α : Type} : CacheEntry α := ⟨[]⟩

/-- `CacheEntry::pop`: pop the most recently used renderer (the back). -/
def CacheEntry.pop {α : Type} (e : CacheEntry α) : Option α × CacheEntry α :=
  (e.renderers.getLast?, ⟨e.renderers.dropLast⟩)

/-- `CacheEntry::push_with_limit`: evict the least recently used (front)
when at capacity, then push to the back. -/
def CacheEntry.push_with_limit {α : Type} (e : CacheEntry α) (x : α) (maxSize : Nat) :
    CacheEntry α :=
  ⟨(if e.renderers.length ≥ maxSize then e.renderers.drop 1 else e.renderers) ++ [x]⟩

def CacheEntry.len {α : Type} (e : CacheEntry α) : Nat := e.renderers.length

/-- `impl Drop for CacheEntry` (`while self.renderers.pop_back().is_some()`):
the order in which the queued renderers are destroyed when the entry is
discarded — back first, front last. -/
def CacheEntry.dropDestructionOrder {α : Type} (e : CacheEntry α) : List α :=
  e.renderers.reverse

-- ===========================================================================
-- Front-matter pipeline (`mdx_to_html_with_frontmatter`)
-- ===========================================================================

/-- `render_markdown(content)`: protect JSX, run the markdown compiler
(oracle `mdOracle`, standing for `to_html_with_options`), restore JSX. -/
def render_markdown (mdOracle : Str → Except String Str) (content : Str) :
    Except String Str :=
  let p := protect_jsx_components content
  match mdOracle p.1 with
  | .error e => .error e
  | .ok html => .ok (restore_jsx_components html p.2)

/-- `mdx_to_html_with_frontmatter(mdx_content, ...)`.
`matterParse` is the `gray_matter` front-matter parser oracle returning the
optional parsed metadata and the remaining body; a document with no leading
front-matter block yields `none` for the metadata, which the code defaults
to the empty JSON object.  `engine` is the JavaScript-engine pipeline
oracle taking the serialized front matter (the props) and the compiled
HTML. -/
def mdx_to_html_with_frontmatter
    (matterParse : Str → Except String (Option Json × Str))
    (mdOracle : Str → Except String Str)
    (engine : String → Str → Except String String)
    (mdx_content : Str) : Except String RenderedMdx :=
  match matterParse mdx_content with
  | .error e => .error e
  | .ok (data, content) =>
    let frontmatter := data.getD (Json.obj [])
    match render_markdown mdOracle content with
    | .error e => .error e
    | .ok html_output =>
      let props_json := frontmatter.serialize
      match engine props_json html_output with
      | .error e => .error e
      | .ok output => .ok { metadata := frontmatter, output := some output }

-- ===========================================================================
-- Theorems
-- ===========================================================================

/-- C1: the round-trip `restore(protect(X)) == X` claimed by the
specification fails on the well-formed, well-nested, within-caps input
`<Outer a={1}><Inner b={2} /></Outer>`: phase 1 protects the inner
self-closing usage as placeholder 0, phase 2 protects the outer usage
(whose recorded text now contains placeholder 0) as placeholder 1, and the
single ascending-order restoration pass replaces placeholder 1 after
having already skipped placeholder 0 — so placeholder 0 is re-introduced
but never restored.  The code's own contract ("content with all
placeholders replaced") and its `restoration incomplete` warning mark this
as a defect of the code, not of the claim. -/
theorem c1_roundtrip_fails_on_nested_usage :
    restore_jsx_components
        (protect_jsx_components "<Outer a=\x7b1\x7d><Inner b=\x7b2\x7d /></Outer>".data).1
        (protect_jsx_components "<Outer a=\x7b1\x7d><Inner b=\x7b2\x7d /></Outer>".data).2 =
      "<Outer a=\x7b1\x7d><!--JSX:0--></Outer>".data ∧
    "<Outer a=\x7b1\x7d><!--JSX:0--></Outer>".data ≠
      "<Outer a=\x7b1\x7d><Inner b=\x7b2\x7d /></Outer>".data := by
  constructor
  · decide
  · decide

/-- C7: the protection pass is a total function that aborts gracefully.
If the next qualifying opening tag has no matching closing tag
(`find_matching_close_tag` returns `none`), the pass stops and returns the
content unchanged — the unbalanced tag is left unprotected, with no error.
If a matching closing tag is found but the accumulated nesting depth
exceeds the cap (100), the pass likewise stops and leaves the remaining
structure as literal text.  (Totality over every input text is intrinsic
to the embedding: `protect_jsx_components` is a Lean function, defined on
all inputs.) -/
theorem c7_protection_aborts_without_error :
    (∀ (fuel : Nat) (content : Str) (ph : List (Nat × Str)) (counter depth pos len openPos d : Nat),
      findFirst openingPattern content 0 = some (pos, len) →
      indexOfSub (sliceStr content pos (pos + len)) content = some openPos →
      find_matching_close_tag content (openPos + (sliceStr content pos (pos + len)).length)
          (tagNameOf (sliceStr content pos (pos + len))) depth = (none, d) →
      protectChildrenLoop (fuel + 1) content ph counter depth = (content, ph, counter)) ∧
    (∀ (fuel : Nat) (content : Str) (ph : List (Nat × Str)) (counter depth pos len openPos closePos d : Nat),
      findFirst openingPattern content 0 = some (pos, len) →
      indexOfSub (sliceStr content pos (pos + len)) content = some openPos →
      find_matching_close_tag content (openPos + (sliceStr content pos (pos + len)).length)
          (tagNameOf (sliceStr content pos (pos + len))) depth = (some closePos, d) →
      d > MAX_JSX_NESTING_DEPTH →
      protectChildrenLoop (fuel + 1) content ph counter depth = (content, ph, counter))
    := by
  constructor
  · intro fuel content ph counter depth pos len openPos d h1 h2 h3
    by_cases hc : counter ≥ MAX_JSX_PLACEHOLDERS
    · simp [protectChildrenLoop, hc]
    · simp [protectChildrenLoop, hc, h1, h2, h3]
  · intro fuel content ph counter depth pos len openPos closePos d h1 h2 h3 hd
    by_cases hc : counter ≥ MAX_JSX_PLACEHOLDERS
    · simp [protectChildrenLoop, hc]
    · simp [protectChildrenLoop, hc, h1, h2, h3, hd]

/-- Witness for C7: an unbalanced opening tag (`<Box a={1}> no close`)
leaves everything untouched, and a balanced construct reached with the
depth accumulator already above the cap is also left untouched. -/
theorem c7_witness :
    protectChildrenLoop 1000 "<Box a=\x7b1\x7d> no close".data [] 0 0 =
      ("<Box a=\x7b1\x7d> no close".data, [], 0) ∧
    protectChildrenLoop 1000 "<Box a=\x7b1\x7d>x</Box>".data [] 0 101 =
      ("<Box a=\x7b1\x7d>x</Box>".data, [], 0) := by
  constructor
  · exact c7_protection_aborts_without_error.1 999 "<Box a=\x7b1\x7d> no close".data [] 0 0
      0 11 0 0 (by decide) (by decide) (by decide)
  · exact c7_protection_aborts_without_error.2 999 "<Box a=\x7b1\x7d>x</Box>".data [] 0 101
      0 11 0 12 101 (by decide) (by decide) (by decide) (by decide)

/-- Pushing a sequence of renderers into an (empty, never-at-capacity)
cache entry leaves the deque holding exactly that sequence, front to
back. -/
theorem cacheEntry_foldl_push {α : Type} (ctxs : List α) (cap : Nat) :
    ∀ (l : List α), l.length + ctxs.length ≤ cap →
      (ctxs.foldl (fun e c => CacheEntry.push_with_limit e c cap) ⟨l⟩).renderers =
        l ++ ctxs := by
  induction ctxs with
  | nil => intro l _; simp
  | cons c rest ih =>
    intro l hlen
    have hlt : ¬ l.length ≥ cap := by
      simp only [List.length_cons] at hlen; omega
    have hpush : CacheEntry.push_with_limit ⟨l⟩ c cap = ⟨l ++ [c]⟩ := by
      simp [CacheEntry.push_with_limit, hlt]
    simp only [List.foldl_cons, hpush]
    have := ih (l ++ [c]) (by simp only [List.length_append, List.length_cons,
      List.length_nil] at hlen ⊢; omega)
    simpa using this

/-- C9: when a cache entry is discarded whole, `Drop` releases the queued
contexts back-to-front (`while pop_back().is_some()`); for an entry whose
queue was populated by pushes in creation order (within capacity, so no
eviction interferes), the destruction order is exactly the reverse of the
creation order — most recently created first, least recently created
last. -/
theorem c9_cache_entry_drops_lifo {α : Type} (ctxs : List α) (cap : Nat)
    (hcap : ctxs.length ≤ cap) :
    (ctxs.foldl (fun e c => CacheEntry.push_with_limit e c cap)
        CacheEntry.empty).dropDestructionOrder = ctxs.reverse := by
  have h := @cacheEntry_foldl_push α ctxs cap [] (by simpa using hcap)
  simp only [CacheEntry.dropDestructionOrder, CacheEntry.empty] at *
  rw [h]
  simp

/-- Witness for C9: three contexts created in order `[1, 2, 3]` are
destroyed in order `[3, 2, 1]`. -/
theorem c9_witness :
    (([1, 2, 3] : List Nat).foldl (fun e c => CacheEntry.push_with_limit e c 4)
        CacheEntry.empty).dropDestructionOrder = [3, 2, 1] := by
  have h := c9_cache_entry_drops_lifo ([1, 2, 3] : List Nat) 4 (by decide)
  simpa using h

/-- C10: a document whose text contains no leading front-matter block (the
front-matter parser yields no metadata) renders without failing on the
missing block, and the returned metadata is exactly the empty JSON object
`{}` — never null and never an error — provided the downstream markdown
and engine oracles succeed. -/
theorem c10_missing_frontmatter_yields_empty_object
    (matterParse : Str → Except String (Option Json × Str))
    (mdOracle : Str → Except String Str)
    (engine : String → Str → Except String String)
    (mdx : Str) (body html : Str) (out : String)
    (hmatter : matterParse mdx = .ok (none, body))
    (hmd : mdOracle (protect_jsx_components body).1 = .ok html)
    (hengine : engine (Json.obj []).serialize
        (restore_jsx_components html (protect_jsx_components body).2) = .ok out) :
    mdx_to_html_with_frontmatter matterParse mdOracle engine mdx =
      .ok { metadata := Json.obj [], output := some out } := by
  simp [mdx_to_html_with_frontmatter, hmatter, render_markdown, hmd, hengine]

/-- Witness for C10 at concrete oracles and input. -/
theorem c10_witness :
    mdx_to_html_with_frontmatter
        (fun _ => .ok (none, "# Hello".data))
        (fun _ => .ok "<h1>Hello</h1>".data)
        (fun _ _ => .ok "<h1>Hello</h1>")
        "# Hello".data =
      .ok { metadata := Json.obj [], output := some "<h1>Hello</h1>" } := by
  exact c10_missing_frontmatter_yields_empty_object _ _ _ _ "# Hello".data
    "<h1>Hello</h1>".data "<h1>Hello</h1>" rfl rfl rfl

/-- C6: `ResourceLimits::validate` accepts a configuration exactly when
all three limits are positive, the batch-size limit is at most 100,000 and
the document-content limit is at most 100 MiB (the component-code limit
has no upper ceiling); and an invalid limits configuration makes
`RenderService::new` fail — construction returns an error before any
request can be processed. -/
theorem c6_limits_validation
    : (∀ l : ResourceLimits,
        l.validate = .ok () ↔
          (0 < l.max_batch_size ∧ 0 < l.max_mdx_content_size ∧
            0 < l.max_component_code_size ∧
            l.max_batch_size ≤ MAX_RECOMMENDED_BATCH_SIZE ∧
            l.max_mdx_content_size ≤ MAX_RECOMMENDED_MDX_CONTENT_SIZE)) ∧
      (∀ (cfg : RenderServiceConfig) (fsExists fsIsDir : Bool),
        cfg.resource_limits.validate ≠ .ok () →
        ∃ msg, RenderService.new cfg fsExists fsIsDir = .error msg) := by
  constructor
  · intro l
    unfold ResourceLimits.validate
    split_ifs with h1 h2 h3 h4 h5 <;>
      first
      | (constructor
         · intro h; cases h
         · intro h; omega)
      | (constructor
         · intro _; omega
         · intro _; rfl)
  · intro cfg fsExists fsIsDir hbad
    unfold RenderService.new RenderServiceConfig.validate
    split_ifs with h1 h2 h3 h4
    · exact ⟨_, rfl⟩
    · exact ⟨_, rfl⟩
    · exact ⟨_, rfl⟩
    · exact ⟨_, rfl⟩
    · cases hv : cfg.resource_limits.validate with
      | error e => simp [hv]
      | ok u => cases u; exact absurd hv hbad

/-- Witness for C6: the default limits pass validation; a zero batch size
makes service construction fail. -/
theorem c6_witness :
    ResourceLimits.default.validate = .ok () ∧
    (∃ msg,
      RenderService.new
        { static_dir := "static", max_cached_renderers := 4
          resource_limits :=
            { max_batch_size := 0, max_mdx_content_size := 1, max_component_code_size := 1 } }
        true true = .error msg) := by
  constructor
  · exact (c6_limits_validation.1 ResourceLimits.default).mpr (by decide)
  · exact c6_limits_validation.2 _ true true
      (by intro h; simp [ResourceLimits.validate] at h)

/-- Inserting a fresh key into the files map appends it. -/
theorem mapInsert_fresh {β : Type} (m : List (String × β)) (k : String) (v : β)
    (h : k ∉ m.map Prod.fst) : mapInsert m k v = m ++ [(k, v)] := by
  have : m.any (fun p => p.1 == k) = false := by
    simp only [List.any_eq_false, beq_iff_eq]
    intro p hp hpk
    exact h (by simpa [hpk] using List.mem_map_of_mem Prod.fst hp)
  simp [mapInsert, this]

/-- The per-document loop of `render_batch`: with pairwise-distinct
document names that are disjoint from the keys already in the files map,
the loop adds exactly one file entry per document and increments the two
counters by the number of documents. -/
theorem renderLoop_spec (render : String → String → Except String RenderedMdx) :
    ∀ (docs : List (String × String)) (files : List (String × FileRenderOutcome))
      (errors : List BatchError) (s f : Nat),
      (docs.map Prod.fst).Nodup →
      (∀ n ∈ docs.map Prod.fst, n ∉ files.map Prod.fst) →
      (renderLoop render docs files errors s f).1.map Prod.fst =
          files.map Prod.fst ++ docs.map Prod.fst ∧
        (renderLoop render docs files errors s f).2.2.1 +
            (renderLoop render docs files errors s f).2.2.2 =
          s + f + docs.length := by
  intro docs
  induction docs with
  | nil => intro files errors s f _ _; simp [renderLoop]
  | cons d rest ih =>
    intro files errors s f hnodup hdisj
    obtain ⟨name, src⟩ := d
    have hfresh : name ∉ files.map Prod.fst := hdisj name (by simp)
    rw [List.map_cons] at hnodup
    have hcons := List.nodup_cons.mp hnodup
    have hnodup' : (rest.map Prod.fst).Nodup := hcons.2
    have hnotrest : name ∉ rest.map Prod.fst := hcons.1
    cases hr : render name src with
    | ok rendered =>
      have hdisj' : ∀ n ∈ rest.map Prod.fst,
          n ∉ (mapInsert files name (FileRenderOutcome.ofSuccess rendered)).map Prod.fst := by
        intro n hn
        rw [mapInsert_fresh _ _ _ hfresh]
        simp only [List.map_append, List.mem_append, List.map_cons, List.map_nil,
          List.mem_singleton, List.mem_cons]
        rintro (hmem | heq)
        · exact hdisj n (by simp [hn]) hmem
        · simp only [List.not_mem_nil] at heq
          rcases heq with heq | heq
          · exact hnotrest (heq ▸ hn)
          · exact heq
      have := ih (mapInsert files name (FileRenderOutcome.ofSuccess rendered))
        errors (s + 1) f hnodup' hdisj'
      simp only [renderLoop, hr] at *
      refine ⟨?_, ?_⟩
      · rw [this.1, mapInsert_fresh _ _ _ hfresh]; simp
      · rw [this.2]; simp [List.length_cons]; omega
    | error msg =>
      have hdisj' : ∀ n ∈ rest.map Prod.fst,
          n ∉ (mapInsert files name
            (FileRenderOutcome.ofFailure msg (create_error_response msg))).map Prod.fst := by
        intro n hn
        rw [mapInsert_fresh _ _ _ hfresh]
        simp only [List.map_append, List.mem_append, List.map_cons, List.map_nil,
          List.mem_singleton, List.mem_cons]
        rintro (hmem | heq)
        · exact hdisj n (by simp [hn]) hmem
        · simp only [List.not_mem_nil] at heq
          rcases heq with heq | heq
          · exact hnotrest (heq ▸ hn)
          · exact heq
      have := ih (mapInsert files name
          (FileRenderOutcome.ofFailure msg (create_error_response msg)))
        (errors ++ [{ file := name, message := msg }]) s (f + 1) hnodup' hdisj'
      simp only [renderLoop, hr] at *
      refine ⟨?_, ?_⟩
      · rw [this.1, mapInsert_fresh _ _ _ hfresh]; simp
      · rw [this.2]; simp [List.length_cons]; omega

/-- C3: every outcome `render_batch` returns satisfies the batch
invariants: `total = succeeded + failed`; with the (HashMap-guaranteed)
distinct document names, `files` has exactly `total` entries;
`is_all_success ↔ failed = 0`; `is_complete_failure ↔ total > 0 ∧
succeeded = 0`; and an empty batch yields `total = 0` with an empty files
map. -/
theorem c3_batch_outcome_invariants
    (limits : ResourceLimits) (checkout : Except String Unit)
    (render : String → String → Except String RenderedMdx)
    (input : NamedMdxBatchInput) (outcome : BatchRenderOutcome)
    (hok : render_batch limits checkout render input = .ok outcome) :
    outcome.total = outcome.succeeded + outcome.failed ∧
    ((input.mdx.map Prod.fst).Nodup → outcome.files.length = outcome.total) ∧
    (outcome.is_all_success = true ↔ outcome.failed = 0) ∧
    (outcome.is_complete_failure = true ↔ 0 < outcome.total ∧ outcome.succeeded = 0) ∧
    (input.mdx = [] → outcome.total = 0 ∧ outcome.files = []) := by
  unfold render_batch at hok
  cases hv : validate_resource_limits limits input.mdx input.components with
  | error e => rw [hv] at hok; cases hok
  | ok u =>
    cases u
    rw [hv] at hok
    simp only [profile_for_request] at hok
    by_cases hempty : input.mdx = []
    · rw [if_pos hempty] at hok
      cases hok
      refine ⟨rfl, fun _ => rfl, ?_, ?_, fun _ => ⟨rfl, rfl⟩⟩
      · simp [BatchRenderOutcome.is_all_success, BatchRenderOutcome.empty]
      · simp [BatchRenderOutcome.is_complete_failure, BatchRenderOutcome.empty]
    · rw [if_neg hempty] at hok
      cases hco : checkout with
      | error e => rw [hco] at hok; cases hok
      | ok u =>
        cases u
        rw [hco] at hok
        cases hok
        refine ⟨rfl, ?_, ?_, ?_, fun h => absurd h hempty⟩
        · intro hnodup
          have hspec := renderLoop_spec render input.mdx [] [] 0 0 hnodup
            (by intro n _ hn; simp at hn)
          have hlen : (renderLoop render input.mdx [] [] 0 0).1.length =
              input.mdx.length := by
            have := congrArg List.length hspec.1
            simpa using this
          have hcnt := hspec.2
          simp only [Nat.zero_add] at hcnt
          simp [BatchRenderOutcome.new, hlen, hcnt]
        · simp [BatchRenderOutcome.is_all_success, BatchRenderOutcome.new,
            decide_eq_true_iff]
        · simp [BatchRenderOutcome.is_complete_failure, BatchRenderOutcome.new,
            decide_eq_true_iff]

/-- Witness for C3 at a concrete one-document batch. -/
theorem c3_witness :
    ∃ o, render_batch ResourceLimits.default (.ok ())
        (fun _ _ => .ok { metadata := Json.null, output := none })
        { settings := { output := .html, minify := true }
          mdx := [("a.mdx", "# hi")], components := none } = .ok o ∧
      o.total = o.succeeded + o.failed ∧ o.files.length = o.total := by
  have h : render_batch ResourceLimits.default (.ok ())
      (fun _ _ => .ok { metadata := Json.null, output := none })
      { settings := { output := .html, minify := true }
        mdx := [("a.mdx", "# hi")], components := none } =
      .ok (BatchRenderOutcome.new
        [("a.mdx", FileRenderOutcome.ofSuccess { metadata := Json.null, output := none })]
        [] 1 0) := rfl
  exact ⟨_, h, (c3_batch_outcome_invariants _ _ _ _ _ h).1,
    (c3_batch_outcome_invariants _ _ _ _ _ h).2.1 (by decide)⟩

/-- C4: resource validation rejects a batch (with an `InvalidRequest`)
exactly when one of the three limits is exceeded; the rejection happens in
`render_batch` before any document is rendered and before a context is
checked out — the same error is returned for every checkout and render
oracle; and each rejection message names the exceeded resource together
with the measured offending size. -/
theorem c4_resource_validation
    (limits : ResourceLimits) (input : NamedMdxBatchInput) :
    ((∃ msg, validate_resource_limits limits input.mdx input.components =
        .error (.invalidRequest msg)) ↔
      ExceedsResourceLimits limits input.mdx input.components) ∧
    (¬ ExceedsResourceLimits limits input.mdx input.components →
      validate_resource_limits limits input.mdx input.components = .ok ()) ∧
    (∀ e, validate_resource_limits limits input.mdx input.components = .error e →
      ∀ (checkout : Except String Unit)
        (render : String → String → Except String RenderedMdx),
        render_batch limits checkout render input = .error e) ∧
    (input.mdx.length > limits.max_batch_size →
      validate_resource_limits limits input.mdx input.components =
        .error (.invalidRequest ("Batch size " ++ toString input.mdx.length ++
          " exceeds maximum allowed " ++ toString limits.max_batch_size))) ∧
    (∀ nc, input.mdx.length ≤ limits.max_batch_size →
      input.mdx.find? (fun p => p.2.length > limits.max_mdx_content_size) = some nc →
      validate_resource_limits limits input.mdx input.components =
        .error (.invalidRequest ("MDX content for \x27" ++ nc.1 ++ "\x27 is " ++
          toString nc.2.length ++ " bytes, exceeds maximum allowed " ++
          toString limits.max_mdx_content_size ++ " bytes"))) ∧
    (∀ comps nc, input.mdx.length ≤ limits.max_batch_size →
      input.mdx.find? (fun p => p.2.length > limits.max_mdx_content_size) = none →
      input.components = some comps →
      comps.find? (fun p => p.2.code.length > limits.max_component_code_size) = some nc →
      validate_resource_limits limits input.mdx input.components =
        .error (.invalidRequest ("Component \x27" ++ nc.1 ++ "\x27 code is " ++
          toString nc.2.code.length ++ " bytes, exceeds maximum allowed " ++
          toString limits.max_component_code_size ++ " bytes"))) := by
  refine ⟨?_, ?_, ?_, ?_, ?_, ?_⟩
  · constructor
    · rintro ⟨msg, hmsg⟩
      unfold validate_resource_limits at hmsg
      split_ifs at hmsg with hbatch
      · exact Or.inl hbatch
      · cases hfind : input.mdx.find? (fun p => p.2.length > limits.max_mdx_content_size) with
        | some nc =>
          refine Or.inr (Or.inl ⟨nc, List.mem_of_find?_eq_some hfind, ?_⟩)
          simpa using List.find?_some hfind
        | none =>
          simp only [hfind] at hmsg
          cases hcomps : input.components with
          | none => simp only [hcomps] at hmsg; exact Except.noConfusion hmsg
          | some comps =>
            simp only [hcomps] at hmsg
            cases hcfind : comps.find?
                (fun p => p.2.code.length > limits.max_component_code_size) with
            | none => simp only [hcfind] at hmsg; exact Except.noConfusion hmsg
            | some nc =>
              refine Or.inr (Or.inr ⟨comps, rfl, nc, List.mem_of_find?_eq_some hcfind, ?_⟩)
              simpa using List.find?_some hcfind
    · intro hex
      unfold validate_resource_limits
      rcases hex with hbatch | hdoc | hcomp
      · rw [if_pos hbatch]; exact ⟨_, rfl⟩
      · by_cases hbatch : input.mdx.length > limits.max_batch_size
        · rw [if_pos hbatch]; exact ⟨_, rfl⟩
        · rw [if_neg hbatch]
          have hsome : (input.mdx.find?
              (fun p => p.2.length > limits.max_mdx_content_size)).isSome := by
            rw [List.find?_isSome]
            obtain ⟨nc, hmem, hgt⟩ := hdoc
            exact ⟨nc, hmem, by simpa using hgt⟩
          obtain ⟨nc, hnc⟩ := Option.isSome_iff_exists.mp hsome
          rw [hnc]
          exact ⟨_, rfl⟩
      · obtain ⟨comps, hcomps, nc, hmem, hgt⟩ := hcomp
        by_cases hbatch : input.mdx.length > limits.max_batch_size
        · rw [if_pos hbatch]; exact ⟨_, rfl⟩
        · rw [if_neg hbatch]
          cases hfind : input.mdx.find?
              (fun p => p.2.length > limits.max_mdx_content_size) with
          | some nc2 => simp only [hfind]; exact ⟨_, rfl⟩
          | none =>
            have hsome : (comps.find?
                (fun p => p.2.code.length > limits.max_component_code_size)).isSome := by
              rw [List.find?_isSome]
              exact ⟨nc, hmem, by simpa using hgt⟩
            obtain ⟨nc2, hnc2⟩ := Option.isSome_iff_exists.mp hsome
            simp only [hfind, hcomps, hnc2]
            exact ⟨_, rfl⟩
  · intro hnex
    unfold validate_resource_limits
    have hbatch : ¬ input.mdx.length > limits.max_batch_size := fun h => hnex (Or.inl h)
    rw [if_neg hbatch]
    cases hfind : input.mdx.find? (fun p => p.2.length > limits.max_mdx_content_size) with
    | some nc =>
      exact absurd (Or.inr (Or.inl ⟨nc, List.mem_of_find?_eq_some hfind,
        by simpa using List.find?_some hfind⟩)) hnex
    | none =>
      cases hcomps : input.components with
      | none => simp
      | some comps =>
        cases hcfind : comps.find?
            (fun p => p.2.code.length > limits.max_component_code_size) with
        | some nc =>
          exact absurd (Or.inr (Or.inr ⟨comps, hcomps, nc,
            List.mem_of_find?_eq_some hcfind,
            by simpa using List.find?_some hcfind⟩)) hnex
        | none => simp [hcfind]
  · intro e he checkout render
    unfold render_batch
    rw [he]
  · intro hbatch
    unfold validate_resource_limits
    rw [if_pos hbatch]
  · intro nc hbatch hfind
    unfold validate_resource_limits
    rw [if_neg (by omega)]
    simp only [hfind]
  · intro comps nc hbatch hfind hcomps hcfind
    unfold validate_resource_limits
    rw [if_neg (by omega)]
    simp only [hfind, hcomps, hcfind]

/-- Witness for C4: a two-document batch against a batch limit of 1 is
rejected whole — for any checkout and render behavior — with the message
naming the batch resource and the measured size 2. -/
theorem c4_witness :
    render_batch
        { max_batch_size := 1, max_mdx_content_size := 10, max_component_code_size := 10 }
        (.ok ()) (fun _ _ => .ok { metadata := Json.null, output := none })
        { settings := { output := .html, minify := true }
          mdx := [("a", "x"), ("b", "y")], components := none } =
      .error (.invalidRequest "Batch size 2 exceeds maximum allowed 1") := by
  have hmsg := (c4_resource_validation
    { max_batch_size := 1, max_mdx_content_size := 10, max_component_code_size := 10 }
    { settings := { output := .html, minify := true }
      mdx := [("a", "x"), ("b", "y")], components := none }).2.2.2.1 (by decide)
  exact (c4_resource_validation _ _).2.2.1 _ hmsg (.ok ())
    (fun _ _ => .ok { metadata := Json.null, output := none })

/-- Dropping the head of a string preserves freedom from Fragment tags. -/
theorem fragTagFree_tail {c : Char} {rest : Str} (h : FragTagFree (c :: rest)) :
    FragTagFree rest := by
  intro i hi hhead
  have := h (i + 1) (by simp [List.length_cons]; omega)
  rw [List.drop_succ_cons] at this
  exact this hhead

/-- The Fragment-stripping pass leaves a string with no Fragment tags
unchanged. -/
theorem removeFragTags_id (s : Str) :
    ∀ fuel, s.length ≤ fuel → FragTagFree s → removeFragTags fuel s = s := by
  induction s with
  | nil => intro fuel _ _; cases fuel <;> rfl
  | cons c rest ih =>
    intro fuel hlen hfree
    cases fuel with
    | zero => simp at hlen
    | succ f =>
      have hrest : removeFragTags f rest = rest :=
        ih f (by simp at hlen; omega) (fragTagFree_tail hfree)
      by_cases hc : c = '<'
      · have hnone : tryFragTagAfterLt rest = none := by
          have := hfree 0 (by simp) (by simp [hc])
          simpa using this
        simp [removeFragTags, hc, hnone, hrest]
      · simp [removeFragTags, hc, hrest]

/-- C5 counterexample: the claim says rendered content that is *not*
entirely wrapped in an outer Fragment wrapper is returned unchanged, but
`unwrap_fragment` on `<p>a</p><Fragment>b</Fragment>` — which starts with
`<p`, not a Fragment tag, and carries no surrounding whitespace — removes
the inner Fragment tags and returns `<p>a</p>b`. -/
theorem c5_counterexample :
    unwrap_fragment "<p>a</p><Fragment>b</Fragment>".data = "<p>a</p>b".data ∧
    "<p>a</p>b".data ≠ "<p>a</p><Fragment>b</Fragment>".data ∧
    trimStr "<p>a</p><Fragment>b</Fragment>".data = "<p>a</p><Fragment>b</Fragment>".data ∧
    tryFragTagAfterLt "p>a</p><Fragment>b</Fragment>".data = none := by
  refine ⟨by decide, by decide, by decide, by decide⟩

/-- C5 (amended): for HTML output the rendered string is trimmed and every
Fragment open/close tag (case-insensitive, attributes allowed) is removed
in one left-to-right pass, preserving all other content; in particular,
content whose trimmed form contains no Fragment tags is returned trimmed
but otherwise unchanged, and output entirely wrapped in a Fragment pair
has the wrapper removed. -/
theorem c5_unwrap_fragment_strips_all_tags :
    (∀ s : Str, FragTagFree (trimStr s) → unwrap_fragment s = trimStr s) ∧
    unwrap_fragment "<Fragment><h1>Hello</h1></Fragment>".data = "<h1>Hello</h1>".data := by
  constructor
  · intro s hfree
    unfold unwrap_fragment
    exact removeFragTags_id (trimStr s) (trimStr s).length (le_refl _) hfree
  · decide

/-- Witness for C5: Fragment-free content is returned trimmed but
otherwise unchanged. -/
theorem c5_witness :
    unwrap_fragment "  <p>hi</p> ".data = trimStr "  <p>hi</p> ".data :=
  c5_unwrap_fragment_strips_all_tags.1 "  <p>hi</p> ".data (by decide)

/-- A prefix determines the head of the larger string. -/
theorem isPrefixOf_head (p t : Str) (c : Char) (hp : p.head? = some c)
    (h : p.isPrefixOf t = true) : t.head? = some c := by
  rw [List.isPrefixOf_iff_prefix] at h
  obtain ⟨r, hr⟩ := h
  cases p with
  | nil => cases hp
  | cons a p' =>
    simp only [List.head?_cons, Option.some.injEq] at hp
    subst hp
    rw [← hr]
    rfl

/-- Strings with distinct heads cannot both appear at the start. -/
theorem not_isPrefixOf_of_head (p t : Str) (c d : Char) (hp : p.head? = some c)
    (ht : t.head? = some d) (hne : c ≠ d) : ¬ p.isPrefixOf t = true := by
  intro h
  rw [isPrefixOf_head p t c hp h] at ht
  exact hne (Option.some.inj ht)

/-- Two prefixes of the same string are comparable; a shorter pattern that
is not a prefix of a longer one cannot co-occur with it. -/
theorem not_isPrefixOf_of_incompatible (p q t : Str) (hq : q.isPrefixOf t = true)
    (hlen : p.length ≤ q.length) (hnp : ¬ p <+: q) : ¬ p.isPrefixOf t = true := by
  intro hp
  exact hnp (List.prefix_of_prefix_length_le (List.isPrefixOf_iff_prefix.mp hp)
    (List.isPrefixOf_iff_prefix.mp hq) hlen)

/-- C2: the export-shape contract of `validate_export_default`.  The
validator accepts exactly the synchronous function declarations named
`Component` (a trimmed body starting with `function ` whose following
identifier token is exactly `Component`); every other shape is rejected
with the distinguishing label: `arrow function` for arrow functions,
`async arrow function` for async arrow functions, `async function` for
async named functions, `class {ClassName}` for classes,
`function {FnName}` for other named functions, and the bare identifier
itself for identifier re-exports. -/
theorem c2_export_default_contract :
    (∀ rest : Str, validate_export_default rest = .ok () ↔
      ("function ".data.isPrefixOf (trimStr rest) = true ∧
        firstToken ((trimStr rest).drop 9) = "Component".data)) ∧
    (∀ rest : Str, (trimStr rest).head? = some '(' →
      validate_export_default rest = .error "arrow function".data) ∧
    (∀ rest : Str, "async (".data.isPrefixOf (trimStr rest) = true →
      validate_export_default rest = .error "async arrow function".data) ∧
    (∀ rest : Str, "async function".data.isPrefixOf (trimStr rest) = true →
      validate_export_default rest = .error "async function".data) ∧
    (∀ rest : Str, "class ".data.isPrefixOf (trimStr rest) = true →
      validate_export_default rest =
        .error ("class ".data ++ firstToken ((trimStr rest).drop 6))) ∧
    (∀ rest : Str, "function ".data.isPrefixOf (trimStr rest) = true →
      firstToken ((trimStr rest).drop 9) ≠ "Component".data →
      validate_export_default rest =
        .error ("function ".data ++ firstToken ((trimStr rest).drop 9))) ∧
    (∀ (rest : Str) (c : Char), (trimStr rest).head? ≠ some '(' →
      ¬ "async (".data.isPrefixOf (trimStr rest) = true →
      ¬ "async function".data.isPrefixOf (trimStr rest) = true →
      ¬ "class ".data.isPrefixOf (trimStr rest) = true →
      ¬ "function ".data.isPrefixOf (trimStr rest) = true →
      (firstToken (trimStr rest)).head? = some c →
      (isAsciiAlpha c || c = '_' || c = '$') = true →
      validate_export_default rest = .error (firstToken (trimStr rest))) := by
  refine ⟨?_, ?_, ?_, ?_, ?_, ?_, ?_⟩
  · intro rest
    constructor
    · intro hok
      unfold validate_export_default at hok
      split_ifs at hok with h1 h2 h3 h4 h5 h6 h7
      exact ⟨h5, h6⟩
    · rintro ⟨hpre, hname⟩
      have hf : (trimStr rest).head? = some 'f' :=
        isPrefixOf_head "function ".data (trimStr rest) 'f' rfl hpre
      unfold validate_export_default
      rw [if_neg (by rw [hf]; simp),
        if_neg (not_isPrefixOf_of_head "async (".data (trimStr rest) 'a' 'f' rfl hf (by decide)),
        if_neg (not_isPrefixOf_of_head "async function".data (trimStr rest) 'a' 'f' rfl hf (by decide)),
        if_neg (not_isPrefixOf_of_head "class ".data (trimStr rest) 'c' 'f' rfl hf (by decide)),
        if_pos hpre, if_pos hname]
  · intro rest h
    simp [validate_export_default, h]
  · intro rest h
    have ha : (trimStr rest).head? = some 'a' :=
      isPrefixOf_head "async (".data (trimStr rest) 'a' rfl h
    unfold validate_export_default
    rw [if_neg (by rw [ha]; simp), if_pos h]
  · intro rest h
    have ha : (trimStr rest).head? = some 'a' :=
      isPrefixOf_head "async function".data (trimStr rest) 'a' rfl h
    have hna : ¬ "async (".data.isPrefixOf (trimStr rest) = true :=
      not_isPrefixOf_of_incompatible "async (".data "async function".data (trimStr rest)
        h (by decide) (by decide)
    unfold validate_export_default
    rw [if_neg (by rw [ha]; simp), if_neg hna, if_pos h]
  · intro rest h
    have hc : (trimStr rest).head? = some 'c' :=
      isPrefixOf_head "class ".data (trimStr rest) 'c' rfl h
    unfold validate_export_default
    rw [if_neg (by rw [hc]; simp),
      if_neg (not_isPrefixOf_of_head "async (".data (trimStr rest) 'a' 'c' rfl hc (by decide)),
      if_neg (not_isPrefixOf_of_head "async function".data (trimStr rest) 'a' 'c' rfl hc (by decide)),
      if_pos h]
  · intro rest h hname
    have hf : (trimStr rest).head? = some 'f' :=
      isPrefixOf_head "function ".data (trimStr rest) 'f' rfl h
    unfold validate_export_default
    rw [if_neg (by rw [hf]; simp),
      if_neg (not_isPrefixOf_of_head "async (".data (trimStr rest) 'a' 'f' rfl hf (by decide)),
      if_neg (not_isPrefixOf_of_head "async function".data (trimStr rest) 'a' 'f' rfl hf (by decide)),
      if_neg (not_isPrefixOf_of_head "class ".data (trimStr rest) 'c' 'f' rfl hf (by decide)),
      if_pos h, if_neg hname]
  · intro rest c h1 h2 h3 h4 h5 hhead hkind
    have hne : firstToken (trimStr rest) ≠ [] := by
      intro hnil
      rw [hnil] at hhead
      cases hhead
    have hlook : looksLikeIdentifier (firstToken (trimStr rest)) = true := by
      unfold looksLikeIdentifier
      rw [hhead]
      exact hkind
    unfold validate_export_default
    rw [if_neg h1, if_neg h2, if_neg h3, if_neg h4, if_neg h5, if_pos ⟨hne, hlook⟩]

/-- Witness for C2, mirroring the spec's examples:
`export default function Component` is accepted; the other shapes are
rejected with their verbatim labels. -/
theorem c2_witness :
    validate_export_default "function Component() \x7b return 1; \x7d".data = .ok () ∧
    validate_export_default "() => 1".data = .error "arrow function".data ∧
    validate_export_default "async () => 1".data = .error "async arrow function".data ∧
    validate_export_default "async function Component() \x7b\x7d".data =
      .error "async function".data ∧
    validate_export_default "class MyWidget \x7b\x7d".data =
      .error ("class ".data ++ firstToken ((trimStr "class MyWidget \x7b\x7d".data).drop 6)) ∧
    validate_export_default "function Button() \x7b\x7d".data =
      .error ("function ".data ++ firstToken ((trimStr "function Button() \x7b\x7d".data).drop 9)) ∧
    validate_export_default "MyComponent".data =
      .error (firstToken (trimStr "MyComponent".data)) := by
  refine ⟨?_, ?_, ?_, ?_, ?_, ?_, ?_⟩
  · exact (c2_export_default_contract.1 _).mpr ⟨by decide, by decide⟩
  · exact c2_export_default_contract.2.1 _ (by decide)
  · exact c2_export_default_contract.2.2.1 _ (by decide)
  · exact c2_export_default_contract.2.2.2.1 _ (by decide)
  · exact c2_export_default_contract.2.2.2.2.1 _ (by decide)
  · exact c2_export_default_contract.2.2.2.2.2.1 _ (by decide) (by decide)
  · exact c2_export_default_contract.2.2.2.2.2.2 _ 'M' (by decide) (by decide)
      (by decide) (by decide) (by decide) (by decide) (by decide)

theorem mem_insStr (x y : String) (l : List String) :
    x ∈ insStr y l ↔ x ∈ l ∨ x = y := by
  unfold insStr
  split_ifs with h
  · constructor
    · exact Or.inl
    · rintro (hx | rfl)
      · exact hx
      · exact h
  · simp [List.mem_append]

theorem nodup_insStr (y : String) (l : List String) (h : l.Nodup) :
    (insStr y l).Nodup := by
  unfold insStr
  split_ifs with hy
  · exact h
  · simp [List.nodup_append, h, hy]

theorem stepChar_id (st : TraverseState) :
    StepChar (fun _ => False) (fun _ => False) (fun _ => False) (fun _ => False) st st := by
  refine ⟨?_, ?_, ?_, ?_, id, id, id, id⟩ <;> intro x <;> simp

theorem stepChar_comp {A K P V A' K' P' V' : String → Prop} {st st' st'' : TraverseState}
    (h1 : StepChar A K P V st st') (h2 : StepChar A' K' P' V' st' st'') :
    StepChar (fun x => A x ∨ A' x) (fun x => K x ∨ K' x) (fun x => P x ∨ P' x)
      (fun x => V x ∨ V' x) st st'' := by
  obtain ⟨c1, k1, p1, v1, n1, n2, n3, n4⟩ := h1
  obtain ⟨c2, k2, p2, v2, m1, m2, m3, m4⟩ := h2
  refine ⟨?_, ?_, ?_, ?_, fun h => m1 (n1 h), fun h => m2 (n2 h),
    fun h => m3 (n3 h), fun h => m4 (n4 h)⟩
  · intro x; rw [c2, c1]; exact or_assoc
  · intro x; rw [k2, k1]; exact or_assoc
  · intro x; rw [p2, p1]; exact or_assoc
  · intro x; rw [v2, v1]; exact or_assoc

theorem stepChar_congr {A K P V A' K' P' V' : String → Prop} {st st' : TraverseState}
    (h : StepChar A K P V st st') (hA : ∀ x, A x ↔ A' x) (hK : ∀ x, K x ↔ K' x)
    (hP : ∀ x, P x ↔ P' x) (hV : ∀ x, V x ↔ V' x) :
    StepChar A' K' P' V' st st' := by
  obtain ⟨c1, k1, p1, v1, n1, n2, n3, n4⟩ := h
  exact ⟨fun x => by rw [c1, hA x], fun x => by rw [k1, hK x],
    fun x => by rw [p1, hP x], fun x => by rw [v1, hV x], n1, n2, n3, n4⟩

theorem stepChar_insComponent (tag : String) (st : TraverseState) :
    StepChar (fun x => x = tag) (fun _ => False) (fun _ => False) (fun _ => False)
      st { st with components := insStr tag st.components } := by
  refine ⟨fun x => mem_insStr x tag st.components, fun x => by simp, fun x => by simp,
    fun x => by simp, fun h => nodup_insStr tag _ h, id, id, id⟩

theorem stepChar_insDirective (k pat sv : String) (st : TraverseState) :
    StepChar (fun _ => False) (fun x => x = k) (fun x => x = pat) (fun x => x = sv)
      st ⟨st.components, insStr k st.keys, insStr pat st.patterns, insStr sv st.values⟩ := by
  refine ⟨fun x => by simp, fun x => mem_insStr x k st.keys,
    fun x => mem_insStr x pat st.patterns, fun x => mem_insStr x sv st.values,
    id, fun h => nodup_insStr k _ h, fun h => nodup_insStr pat _ h,
    fun h => nodup_insStr sv _ h⟩

/-- Characterization of the attribute loop: it contributes exactly the
keys, generalized patterns and serialized values of the attributes whose
key matches a configured prefix (first match). -/
theorem attrsLoop_char (prefixes : List String) :
    ∀ (attrs : List (String × Json)) (st : TraverseState),
      StepChar (fun _ => False)
        (fun k => ∃ v p, (k, v) ∈ attrs ∧
          prefixes.find? (fun q => q.isPrefixOf k) = some p)
        (fun pat => ∃ k v p, (k, v) ∈ attrs ∧
          prefixes.find? (fun q => q.isPrefixOf k) = some p ∧ pat = genPattern p k)
        (fun s => ∃ k v p, (k, v) ∈ attrs ∧
          prefixes.find? (fun q => q.isPrefixOf k) = some p ∧ s = Json.serialize v)
        st (attrsLoop prefixes attrs st) := by
  intro attrs
  induction attrs with
  | nil =>
    intro st
    refine stepChar_congr (stepChar_id st) (fun x => Iff.rfl) ?_ ?_ ?_ <;>
      intro x <;> simp
  | cons kv rest ih =>
    intro st
    obtain ⟨k, v⟩ := kv
    cases hf : prefixes.find? (fun q => q.isPrefixOf k) with
    | none =>
      simp only [attrsLoop, hf]
      refine stepChar_congr (ih st) (fun x => Iff.rfl) ?_ ?_ ?_
      · intro x
        constructor
        · rintro ⟨v', p', hmem, hfind⟩
          exact ⟨v', p', List.mem_cons_of_mem _ hmem, hfind⟩
        · rintro ⟨v', p', hmem, hfind⟩
          rcases List.mem_cons.mp hmem with heq | hmem'
          · injection heq with h1 h2
            subst h1
            rw [hf] at hfind
            exact Option.noConfusion hfind
          · exact ⟨v', p', hmem', hfind⟩
      · intro x
        constructor
        · rintro ⟨k', v', p', hmem, hfind, hpat⟩
          exact ⟨k', v', p', List.mem_cons_of_mem _ hmem, hfind, hpat⟩
        · rintro ⟨k', v', p', hmem, hfind, hpat⟩
          rcases List.mem_cons.mp hmem with heq | hmem'
          · injection heq with h1 h2
            subst h1
            rw [hf] at hfind
            exact Option.noConfusion hfind
          · exact ⟨k', v', p', hmem', hfind, hpat⟩
      · intro x
        constructor
        · rintro ⟨k', v', p', hmem, hfind, hval⟩
          exact ⟨k', v', p', List.mem_cons_of_mem _ hmem, hfind, hval⟩
        · rintro ⟨k', v', p', hmem, hfind, hval⟩
          rcases List.mem_cons.mp hmem with heq | hmem'
          · injection heq with h1 h2
            subst h1
            rw [hf] at hfind
            exact Option.noConfusion hfind
          · exact ⟨k', v', p', hmem', hfind, hval⟩
    | some p =>
      simp only [attrsLoop, hf]
      refine stepChar_congr
        (stepChar_comp (stepChar_insDirective k (genPattern p k) (Json.serialize v) st)
          (ih ⟨st.components, insStr k st.keys, insStr (genPattern p k) st.patterns,
            insStr (Json.serialize v) st.values⟩)) ?_ ?_ ?_ ?_
      · intro x; simp
      · intro x
        constructor
        · rintro (rfl | ⟨v', p', hmem, hfind⟩)
          · exact ⟨v, p, List.mem_cons_self _ _, hf⟩
          · exact ⟨v', p', List.mem_cons_of_mem _ hmem, hfind⟩
        · rintro ⟨v', p', hmem, hfind⟩
          rcases List.mem_cons.mp hmem with heq | hmem'
          · exact Or.inl (congrArg Prod.fst heq)
          · exact Or.inr ⟨v', p', hmem', hfind⟩
      · intro x
        constructor
        · rintro (rfl | ⟨k', v', p', hmem, hfind, hpat⟩)
          · exact ⟨k, v, p, List.mem_cons_self _ _, hf, rfl⟩
          · exact ⟨k', v', p', List.mem_cons_of_mem _ hmem, hfind, hpat⟩
        · rintro ⟨k', v', p', hmem, hfind, hpat⟩
          rcases List.mem_cons.mp hmem with heq | hmem'
          · injection heq with h1 h2
            subst h1
            rw [hf] at hfind
            cases hfind
            exact Or.inl hpat
          · exact Or.inr ⟨k', v', p', hmem', hfind, hpat⟩
      · intro x
        constructor
        · rintro (rfl | ⟨k', v', p', hmem, hfind, hval⟩)
          · exact ⟨k, v, p, List.mem_cons_self _ _, hf, rfl⟩
          · exact ⟨k', v', p', List.mem_cons_of_mem _ hmem, hfind, hval⟩
        · rintro ⟨k', v', p', hmem, hfind, hval⟩
          rcases List.mem_cons.mp hmem with heq | hmem'
          · injection heq with h1 h2
            subst h1
            subst h2
            exact Or.inl hval
          · exact Or.inr ⟨k', v', p', hmem', hfind, hval⟩

theorem lookupField_mem (fs : List (String × Json)) (k : String) (v : Json)
    (h : lookupField fs k = some v) : (k, v) ∈ fs := by
  unfold lookupField at h
  rw [Option.map_eq_some'] at h
  obtain ⟨⟨k', v'⟩, hfind, hv⟩ := h
  have hk : k' = k := by simpa using List.find?_some hfind
  have hmem := List.mem_of_find?_eq_some hfind
  subst hk
  cases hv
  exact hmem

theorem subJson_obj_iff (t : Json) (fs : List (String × Json)) :
    SubJson t (Json.obj fs) ↔ t = Json.obj fs ∨ ∃ kv ∈ fs, SubJson t kv.2 := by
  constructor
  · intro h
    cases h with
    | refl => exact Or.inl rfl
    | objField hmem hsub => exact Or.inr ⟨(_, _), hmem, hsub⟩
  · rintro (rfl | ⟨⟨k, v⟩, hmem, hsub⟩)
    · exact SubJson.refl _
    · exact SubJson.objField hmem hsub

theorem subJson_arr_iff (t : Json) (xs : List Json) :
    SubJson t (Json.arr xs) ↔ t = Json.arr xs ∨ ∃ x ∈ xs, SubJson t x := by
  constructor
  · intro h
    cases h with
    | refl => exact Or.inl rfl
    | arrElem hmem hsub => exact Or.inr ⟨_, hmem, hsub⟩
  · rintro (rfl | ⟨x, hmem, hsub⟩)
    · exact SubJson.refl _
    · exact SubJson.arrElem hmem hsub

theorem compOccurs_obj (fields : List (String × Json)) (x : String) :
    CompOccurs (Json.obj fields) x ↔
      (lookupField fields "type" = some (Json.str x) ∧ isComponentTag x = true) ∨
      ∃ kv ∈ fields, CompOccurs kv.2 x := by
  unfold CompOccurs
  constructor
  · rintro ⟨fs, hsub, hlook, htag⟩
    rcases (subJson_obj_iff _ _).mp hsub with heq | ⟨kv, hmem, hsub'⟩
    · injection heq with h
      subst h
      exact Or.inl ⟨hlook, htag⟩
    · exact Or.inr ⟨kv, hmem, fs, hsub', hlook, htag⟩
  · rintro (⟨hlook, htag⟩ | ⟨kv, hmem, fs, hsub, hlook, htag⟩)
    · exact ⟨fields, SubJson.refl _, hlook, htag⟩
    · exact ⟨fs, (subJson_obj_iff _ _).mpr (Or.inr ⟨kv, hmem, hsub⟩), hlook, htag⟩

theorem compOccurs_arr (xs : List Json) (x : String) :
    CompOccurs (Json.arr xs) x ↔ ∃ j ∈ xs, CompOccurs j x := by
  unfold CompOccurs
  constructor
  · rintro ⟨fs, hsub, hlook, htag⟩
    rcases (subJson_arr_iff _ _).mp hsub with heq | ⟨j, hmem, hsub'⟩
    · exact Json.noConfusion heq
    · exact ⟨j, hmem, fs, hsub', hlook, htag⟩
  · rintro ⟨j, hmem, fs, hsub, hlook, htag⟩
    exact ⟨fs, (subJson_arr_iff _ _).mpr (Or.inr ⟨j, hmem, hsub⟩), hlook, htag⟩

theorem dirOccurs_obj (prefixes : List String) (fields : List (String × Json))
    (p k : String) (v : Json) :
    DirOccurs (Json.obj fields) prefixes p k v ↔
      (∃ attrs, lookupField fields "attributes" = some (Json.obj attrs) ∧
        (k, v) ∈ attrs ∧ prefixes.find? (fun q => q.isPrefixOf k) = some p) ∨
      ∃ kv ∈ fields, DirOccurs kv.2 prefixes p k v := by
  unfold DirOccurs
  constructor
  · rintro ⟨fs, attrs, hsub, hlook, hmem, hfind⟩
    rcases (subJson_obj_iff _ _).mp hsub with heq | ⟨kv, hmemf, hsub'⟩
    · injection heq with h
      subst h
      exact Or.inl ⟨attrs, hlook, hmem, hfind⟩
    · exact Or.inr ⟨kv, hmemf, fs, attrs, hsub', hlook, hmem, hfind⟩
  · rintro (⟨attrs, hlook, hmem, hfind⟩ | ⟨kv, hmemf, fs, attrs, hsub, hlook, hmem, hfind⟩)
    · exact ⟨fields, attrs, SubJson.refl _, hlook, hmem, hfind⟩
    · exact ⟨fs, attrs, (subJson_obj_iff _ _).mpr (Or.inr ⟨kv, hmemf, hsub⟩),
        hlook, hmem, hfind⟩

theorem dirOccurs_arr (prefixes : List String) (xs : List Json) (p k : String) (v : Json) :
    DirOccurs (Json.arr xs) prefixes p k v ↔
      ∃ j ∈ xs, DirOccurs j prefixes p k v := by
  unfold DirOccurs
  constructor
  · rintro ⟨fs, attrs, hsub, hlook, hmem, hfind⟩
    rcases (subJson_arr_iff _ _).mp hsub with heq | ⟨j, hmemx, hsub'⟩
    · exact Json.noConfusion heq
    · exact ⟨j, hmemx, fs, attrs, hsub', hlook, hmem, hfind⟩
  · rintro ⟨j, hmemx, fs, attrs, hsub, hlook, hmem, hfind⟩
    exact ⟨fs, attrs, (subJson_arr_iff _ _).mpr (Or.inr ⟨j, hmemx, hsub⟩),
      hlook, hmem, hfind⟩

theorem subJson_to_leaf {t j : Json} (h : SubJson t j) :
    t = j ∨ (∃ fs, j = Json.obj fs) ∨ (∃ xs, j = Json.arr xs) := by
  cases h with
  | refl => exact Or.inl rfl
  | objField hm hs => exact Or.inr (Or.inl ⟨_, rfl⟩)
  | arrElem hm hs => exact Or.inr (Or.inr ⟨_, rfl⟩)

theorem compOccurs_not_leaf (j : Json) (x : String)
    (hobj : ∀ fs, j ≠ Json.obj fs) (harr : ∀ xs, j ≠ Json.arr xs) :
    ¬ CompOccurs j x := by
  unfold CompOccurs
  rintro ⟨fs, hsub, -, -⟩
  rcases subJson_to_leaf hsub with heq | ⟨gs, heq⟩ | ⟨ys, heq⟩
  · exact hobj fs heq.symm
  · exact hobj gs heq
  · exact harr ys heq

theorem dirOccurs_not_leaf (j : Json) (prefixes : List String) (p k : String) (v : Json)
    (hobj : ∀ fs, j ≠ Json.obj fs) (harr : ∀ xs, j ≠ Json.arr xs) :
    ¬ DirOccurs j prefixes p k v := by
  unfold DirOccurs
  rintro ⟨fs, attrs, hsub, -, -, -⟩
  rcases subJson_to_leaf hsub with heq | ⟨gs, heq⟩ | ⟨ys, heq⟩
  · exact hobj fs heq.symm
  · exact hobj gs heq
  · exact harr ys heq

/-- Characterization of the `type` step. -/
theorem typeStep_char (fields : List (String × Json)) (st : TraverseState) :
    StepChar
      (fun x => lookupField fields "type" = some (Json.str x) ∧ isComponentTag x = true)
      (fun _ => False) (fun _ => False) (fun _ => False) st (typeStep fields st) := by
  cases hty : lookupField fields "type" with
  | none =>
    have heq : typeStep fields st = st := by unfold typeStep; rw [hty]
    rw [heq]
    refine stepChar_congr (stepChar_id st) ?_ (fun x => Iff.rfl) (fun x => Iff.rfl)
      (fun x => Iff.rfl)
    intro x
    simp
  | some j =>
    cases j with
    | str tag =>
      have heq : typeStep fields st =
          if isComponentTag tag = true then
            { st with components := insStr tag st.components }
          else st := by
        unfold typeStep; rw [hty]
      rw [heq]
      by_cases htag : isComponentTag tag = true
      · rw [if_pos htag]
        refine stepChar_congr (stepChar_insComponent tag st) ?_ (fun x => Iff.rfl)
          (fun x => Iff.rfl) (fun x => Iff.rfl)
        intro x
        constructor
        · rintro rfl
          exact ⟨rfl, htag⟩
        · rintro ⟨h1, -⟩
          injection h1 with h2
          injection h2 with h3
          exact h3.symm
      · rw [if_neg htag]
        refine stepChar_congr (stepChar_id st) ?_ (fun x => Iff.rfl) (fun x => Iff.rfl)
          (fun x => Iff.rfl)
        intro x
        constructor
        · rintro ⟨⟩
        · rintro ⟨h1, h2⟩
          injection h1 with h3
          injection h3 with h4
          subst h4
          exact htag h2
    | null =>
      have heq : typeStep fields st = st := by unfold typeStep; rw [hty]
      rw [heq]
      refine stepChar_congr (stepChar_id st) ?_ (fun x => Iff.rfl) (fun x => Iff.rfl)
        (fun x => Iff.rfl)
      intro x
      simp
    | bool b =>
      have heq : typeStep fields st = st := by unfold typeStep; rw [hty]
      rw [heq]
      refine stepChar_congr (stepChar_id st) ?_ (fun x => Iff.rfl) (fun x => Iff.rfl)
        (fun x => Iff.rfl)
      intro x
      simp
    | num m =>
      have heq : typeStep fields st = st := by unfold typeStep; rw [hty]
      rw [heq]
      refine stepChar_congr (stepChar_id st) ?_ (fun x => Iff.rfl) (fun x => Iff.rfl)
        (fun x => Iff.rfl)
      intro x
      simp
    | arr xs =>
      have heq : typeStep fields st = st := by unfold typeStep; rw [hty]
      rw [heq]
      refine stepChar_congr (stepChar_id st) ?_ (fun x => Iff.rfl) (fun x => Iff.rfl)
        (fun x => Iff.rfl)
      intro x
      simp
    | obj gs =>
      have heq : typeStep fields st = st := by unfold typeStep; rw [hty]
      rw [heq]
      refine stepChar_congr (stepChar_id st) ?_ (fun x => Iff.rfl) (fun x => Iff.rfl)
        (fun x => Iff.rfl)
      intro x
      simp

/-- Characterization of the `attributes` step. -/
theorem attrStep_char (prefixes : List String) (fields : List (String × Json))
    (st : TraverseState) :
    StepChar (fun _ => False)
      (fun k => ∃ attrs v p, lookupField fields "attributes" = some (Json.obj attrs) ∧
        (k, v) ∈ attrs ∧ prefixes.find? (fun q => q.isPrefixOf k) = some p)
      (fun pat => ∃ attrs k v p, lookupField fields "attributes" = some (Json.obj attrs) ∧
        (k, v) ∈ attrs ∧ prefixes.find? (fun q => q.isPrefixOf k) = some p ∧
        pat = genPattern p k)
      (fun s => ∃ attrs k v p, lookupField fields "attributes" = some (Json.obj attrs) ∧
        (k, v) ∈ attrs ∧ prefixes.find? (fun q => q.isPrefixOf k) = some p ∧
        s = Json.serialize v)
      st (attrStep prefixes fields st) := by
  cases hat : lookupField fields "attributes" with
  | none =>
    have heq : attrStep prefixes fields st = st := by unfold attrStep; rw [hat]
    rw [heq]
    refine stepChar_congr (stepChar_id st) (fun x => Iff.rfl) ?_ ?_ ?_ <;> intro x <;> simp
  | some j =>
    cases j with
    | obj attrs =>
      have heq : attrStep prefixes fields st = attrsLoop prefixes attrs st := by
        unfold attrStep; rw [hat]
      rw [heq]
      refine stepChar_congr (attrsLoop_char prefixes attrs st) (fun x => Iff.rfl)
        ?_ ?_ ?_ <;> intro x
      · constructor
        · rintro ⟨v, p, hmem, hfind⟩
          exact ⟨attrs, v, p, rfl, hmem, hfind⟩
        · rintro ⟨attrs2, v, p, h1, hmem, hfind⟩
          injection h1 with h2
          injection h2 with h3
          subst h3
          exact ⟨v, p, hmem, hfind⟩
      · constructor
        · rintro ⟨k, v, p, hmem, hfind, hpat⟩
          exact ⟨attrs, k, v, p, rfl, hmem, hfind, hpat⟩
        · rintro ⟨attrs2, k, v, p, h1, hmem, hfind, hpat⟩
          injection h1 with h2
          injection h2 with h3
          subst h3
          exact ⟨k, v, p, hmem, hfind, hpat⟩
      · constructor
        · rintro ⟨k, v, p, hmem, hfind, hval⟩
          exact ⟨attrs, k, v, p, rfl, hmem, hfind, hval⟩
        · rintro ⟨attrs2, k, v, p, h1, hmem, hfind, hval⟩
          injection h1 with h2
          injection h2 with h3
          subst h3
          exact ⟨k, v, p, hmem, hfind, hval⟩
    | null =>
      have heq : attrStep prefixes fields st = st := by unfold attrStep; rw [hat]
      rw [heq]
      refine stepChar_congr (stepChar_id st) (fun x => Iff.rfl) ?_ ?_ ?_ <;> intro x <;> simp
    | bool b =>
      have heq : attrStep prefixes fields st = st := by unfold attrStep; rw [hat]
      rw [heq]
      refine stepChar_congr (stepChar_id st) (fun x => Iff.rfl) ?_ ?_ ?_ <;> intro x <;> simp
    | num m =>
      have heq : attrStep prefixes fields st = st := by unfold attrStep; rw [hat]
      rw [heq]
      refine stepChar_congr (stepChar_id st) (fun x => Iff.rfl) ?_ ?_ ?_ <;> intro x <;> simp
    | str s0 =>
      have heq : attrStep prefixes fields st = st := by unfold attrStep; rw [hat]
      rw [heq]
      refine stepChar_congr (stepChar_id st) (fun x => Iff.rfl) ?_ ?_ ?_ <;> intro x <;> simp
    | arr ys =>
      have heq : attrStep prefixes fields st = st := by unfold attrStep; rw [hat]
      rw [heq]
      refine stepChar_congr (stepChar_id st) (fun x => Iff.rfl) ?_ ?_ ?_ <;> intro x <;> simp

/-- The master characterization of the traversal: starting from any
state, `traverse_json_tree` adds to each collected set exactly the
occurrences described by `CompOccurs`/`DirOccurs`, and preserves
duplicate-freedom. -/
theorem traverse_json_tree_char (prefixes : List String) :
    ∀ (n : Nat) (node : Json), sizeOf node ≤ n → ∀ st : TraverseState,
      StepChar (CompOccurs node)
        (fun k => ∃ p v, DirOccurs node prefixes p k v)
        (fun pat => ∃ p k v, DirOccurs node prefixes p k v ∧ pat = genPattern p k)
        (fun s => ∃ p k v, DirOccurs node prefixes p k v ∧ s = Json.serialize v)
        st (traverse_json_tree prefixes node st) := by
  intro n
  induction n using Nat.strong_induction_on with
  | _ n IH =>
    intro node hsize st
    cases node with
    | null =>
      have hred : traverse_json_tree prefixes Json.null st = st := by
        rw [traverse_json_tree] <;> intro x h <;> exact Json.noConfusion h
      rw [hred]
      refine stepChar_congr (stepChar_id st) ?_ ?_ ?_ ?_
      · intro x
        simp only [false_iff]
        exact compOccurs_not_leaf _ _ (by intro fs h; exact Json.noConfusion h)
          (by intro xs h; exact Json.noConfusion h)
      · intro x
        simp only [false_iff]
        rintro ⟨p, v, hd⟩
        exact dirOccurs_not_leaf _ _ _ _ _ (by intro fs h; exact Json.noConfusion h)
          (by intro xs h; exact Json.noConfusion h) hd
      · intro x
        simp only [false_iff]
        rintro ⟨p, k, v, hd, -⟩
        exact dirOccurs_not_leaf _ _ _ _ _ (by intro fs h; exact Json.noConfusion h)
          (by intro xs h; exact Json.noConfusion h) hd
      · intro x
        simp only [false_iff]
        rintro ⟨p, k, v, hd, -⟩
        exact dirOccurs_not_leaf _ _ _ _ _ (by intro fs h; exact Json.noConfusion h)
          (by intro xs h; exact Json.noConfusion h) hd
    | bool b =>
      have hred : traverse_json_tree prefixes (Json.bool b) st = st := by
        rw [traverse_json_tree] <;> intro x h <;> exact Json.noConfusion h
      rw [hred]
      refine stepChar_congr (stepChar_id st) ?_ ?_ ?_ ?_
      · intro x
        simp only [false_iff]
        exact compOccurs_not_leaf _ _ (by intro fs h; exact Json.noConfusion h)
          (by intro xs h; exact Json.noConfusion h)
      · intro x
        simp only [false_iff]
        rintro ⟨p, v, hd⟩
        exact dirOccurs_not_leaf _ _ _ _ _ (by intro fs h; exact Json.noConfusion h)
          (by intro xs h; exact Json.noConfusion h) hd
      · intro x
        simp only [false_iff]
        rintro ⟨p, k, v, hd, -⟩
        exact dirOccurs_not_leaf _ _ _ _ _ (by intro fs h; exact Json.noConfusion h)
          (by intro xs h; exact Json.noConfusion h) hd
      · intro x
        simp only [false_iff]
        rintro ⟨p, k, v, hd, -⟩
        exact dirOccurs_not_leaf _ _ _ _ _ (by intro fs h; exact Json.noConfusion h)
          (by intro xs h; exact Json.noConfusion h) hd
    | num m =>
      have hred : traverse_json_tree prefixes (Json.num m) st = st := by
        rw [traverse_json_tree] <;> intro x h <;> exact Json.noConfusion h
      rw [hred]
      refine stepChar_congr (stepChar_id st) ?_ ?_ ?_ ?_
      · intro x
        simp only [false_iff]
        exact compOccurs_not_leaf _ _ (by intro fs h; exact Json.noConfusion h)
          (by intro xs h; exact Json.noConfusion h)
      · intro x
        simp only [false_iff]
        rintro ⟨p, v, hd⟩
        exact dirOccurs_not_leaf _ _ _ _ _ (by intro fs h; exact Json.noConfusion h)
          (by intro xs h; exact Json.noConfusion h) hd
      · intro x
        simp only [false_iff]
        rintro ⟨p, k, v, hd, -⟩
        exact dirOccurs_not_leaf _ _ _ _ _ (by intro fs h; exact Json.noConfusion h)
          (by intro xs h; exact Json.noConfusion h) hd
      · intro x
        simp only [false_iff]
        rintro ⟨p, k, v, hd, -⟩
        exact dirOccurs_not_leaf _ _ _ _ _ (by intro fs h; exact Json.noConfusion h)
          (by intro xs h; exact Json.noConfusion h) hd
    | str s0 =>
      have hred : traverse_json_tree prefixes (Json.str s0) st = st := by
        rw [traverse_json_tree] <;> intro x h <;> exact Json.noConfusion h
      rw [hred]
      refine stepChar_congr (stepChar_id st) ?_ ?_ ?_ ?_
      · intro x
        simp only [false_iff]
        exact compOccurs_not_leaf _ _ (by intro fs h; exact Json.noConfusion h)
          (by intro xs h; exact Json.noConfusion h)
      · intro x
        simp only [false_iff]
        rintro ⟨p, v, hd⟩
        exact dirOccurs_not_leaf _ _ _ _ _ (by intro fs h; exact Json.noConfusion h)
          (by intro xs h; exact Json.noConfusion h) hd
      · intro x
        simp only [false_iff]
        rintro ⟨p, k, v, hd, -⟩
        exact dirOccurs_not_leaf _ _ _ _ _ (by intro fs h; exact Json.noConfusion h)
          (by intro xs h; exact Json.noConfusion h) hd
      · intro x
        simp only [false_iff]
        rintro ⟨p, k, v, hd, -⟩
        exact dirOccurs_not_leaf _ _ _ _ _ (by intro fs h; exact Json.noConfusion h)
          (by intro xs h; exact Json.noConfusion h) hd
    | arr xs =>
      have hsz : ∀ j ∈ xs, sizeOf j < n := by
        intro j hj
        have h1 := List.sizeOf_lt_of_mem hj
        have h2 : sizeOf (Json.arr xs) ≤ n := hsize
        simp only [Json.arr.sizeOf_spec] at h2
        omega
      have hlist : ∀ ys : List Json, (∀ j ∈ ys, sizeOf j < n) → ∀ st0 : TraverseState,
          StepChar (fun x => ∃ j ∈ ys, CompOccurs j x)
            (fun k => ∃ j ∈ ys, ∃ p v, DirOccurs j prefixes p k v)
            (fun pat => ∃ j ∈ ys, ∃ p k v, DirOccurs j prefixes p k v ∧
              pat = genPattern p k)
            (fun s => ∃ j ∈ ys, ∃ p k v, DirOccurs j prefixes p k v ∧
              s = Json.serialize v)
            st0 (traverseList prefixes ys st0) := by
        intro ys
        induction ys with
        | nil =>
          intro _ st0
          have hred : traverseList prefixes [] st0 = st0 := by rw [traverseList]
          rw [hred]
          refine stepChar_congr (stepChar_id st0) ?_ ?_ ?_ ?_ <;> intro x <;> simp
        | cons y rest ihy =>
          intro hszy st0
          have hred : traverseList prefixes (y :: rest) st0 =
              traverseList prefixes rest (traverse_json_tree prefixes y st0) := by
            rw [traverseList]
          rw [hred]
          refine stepChar_congr
            (stepChar_comp (IH (sizeOf y) (hszy y (List.mem_cons_self _ _)) y le_rfl st0)
              (ihy (fun j hj => hszy j (List.mem_cons_of_mem _ hj))
                (traverse_json_tree prefixes y st0))) ?_ ?_ ?_ ?_
          all_goals
            intro x
            constructor
            · rintro (h | ⟨j, hj, h⟩)
              · exact ⟨y, List.mem_cons_self _ _, h⟩
              · exact ⟨j, List.mem_cons_of_mem _ hj, h⟩
            · rintro ⟨j, hj, h⟩
              rcases List.mem_cons.mp hj with rfl | hj2
              · exact Or.inl h
              · exact Or.inr ⟨j, hj2, h⟩
      have hredA : traverse_json_tree prefixes (Json.arr xs) st =
          traverseList prefixes xs st := by
        rw [traverse_json_tree]
      rw [hredA]
      refine stepChar_congr (hlist xs hsz st) ?_ ?_ ?_ ?_
      · intro x
        rw [compOccurs_arr]
      · intro x
        constructor
        · rintro ⟨j, hj, p, v, hd⟩
          exact ⟨p, v, (dirOccurs_arr prefixes xs p x v).mpr ⟨j, hj, hd⟩⟩
        · rintro ⟨p, v, hd⟩
          obtain ⟨j, hj, hd2⟩ := (dirOccurs_arr prefixes xs p x v).mp hd
          exact ⟨j, hj, p, v, hd2⟩
      · intro x
        constructor
        · rintro ⟨j, hj, p, k, v, hd, hpat⟩
          exact ⟨p, k, v, (dirOccurs_arr prefixes xs p k v).mpr ⟨j, hj, hd⟩, hpat⟩
        · rintro ⟨p, k, v, hd, hpat⟩
          obtain ⟨j, hj, hd2⟩ := (dirOccurs_arr prefixes xs p k v).mp hd
          exact ⟨j, hj, p, k, v, hd2, hpat⟩
      · intro x
        constructor
        · rintro ⟨j, hj, p, k, v, hd, hval⟩
          exact ⟨p, k, v, (dirOccurs_arr prefixes xs p k v).mpr ⟨j, hj, hd⟩, hval⟩
        · rintro ⟨p, k, v, hd, hval⟩
          obtain ⟨j, hj, hd2⟩ := (dirOccurs_arr prefixes xs p k v).mp hd
          exact ⟨j, hj, p, k, v, hd2, hval⟩
    | obj fields =>
      have hszf : ∀ kv ∈ fields, sizeOf kv.2 < n := by
        intro kv hkv
        have h1 := List.sizeOf_lt_of_mem hkv
        have h2 : sizeOf (Json.obj fields) ≤ n := hsize
        simp only [Json.obj.sizeOf_spec] at h2
        obtain ⟨a, b⟩ := kv
        simp only [Prod.mk.sizeOf_spec] at h1
        simp only
        omega
      have hfieldsC : ∀ gs : List (String × Json),
          (∀ kv ∈ gs, sizeOf kv.2 < n) → ∀ st0 : TraverseState,
          StepChar (fun x => ∃ kv ∈ gs, CompOccurs kv.2 x)
            (fun k => ∃ kv ∈ gs, ∃ p v,
              DirOccurs kv.2 prefixes p k v)
            (fun pat => ∃ kv ∈ gs, ∃ p k v,
              DirOccurs kv.2 prefixes p k v ∧ pat = genPattern p k)
            (fun s => ∃ kv ∈ gs, ∃ p k v,
              DirOccurs kv.2 prefixes p k v ∧ s = Json.serialize v)
            st0 (traverseFields prefixes gs st0) := by
        intro gs
        induction gs with
        | nil =>
          intro _ st0
          have hred : traverseFields prefixes [] st0 = st0 := by rw [traverseFields]
          rw [hred]
          refine stepChar_congr (stepChar_id st0) ?_ ?_ ?_ ?_ <;> intro x <;> simp
        | cons kv rest ihg =>
          intro hszg st0
          obtain ⟨kk, vv⟩ := kv
          have hred : traverseFields prefixes ((kk, vv) :: rest) st0 =
              traverseFields prefixes rest (traverse_json_tree prefixes vv st0) := by
            rw [traverseFields]
          rw [hred]
          refine stepChar_congr
            (stepChar_comp
              (IH (sizeOf vv) (by simpa using hszg (kk, vv) (List.mem_cons_self _ _))
                vv le_rfl st0)
              (ihg (fun kv hkv => hszg kv (List.mem_cons_of_mem _ hkv))
                (traverse_json_tree prefixes vv st0))) ?_ ?_ ?_ ?_
          all_goals
            intro x
            constructor
            · rintro (h | ⟨kv, hkv, h⟩)
              · exact ⟨(kk, vv), List.mem_cons_self _ _, h⟩
              · exact ⟨kv, List.mem_cons_of_mem _ hkv, h⟩
            · rintro ⟨kv, hkv, h⟩
              rcases List.mem_cons.mp hkv with rfl | hkv2
              · exact Or.inl h
              · exact Or.inr ⟨kv, hkv2, h⟩
      have hbody : traverse_json_tree prefixes (Json.obj fields) st =
          traverseFields prefixes fields
            (match lookupField fields "children" with
              | some ch =>
                traverse_json_tree prefixes ch (attrStep prefixes fields (typeStep fields st))
              | none => attrStep prefixes fields (typeStep fields st)) := by
        rw [traverse_json_tree]
        cases lookupField fields "children" <;> rfl
      rw [hbody]
      cases hch : lookupField fields "children" with
      | none =>
        have hstep :=
          stepChar_comp
            (stepChar_comp (typeStep_char fields st)
              (attrStep_char prefixes fields (typeStep fields st)))
            (hfieldsC fields hszf (attrStep prefixes fields (typeStep fields st)))
        refine stepChar_congr hstep ?_ ?_ ?_ ?_
        · intro x
          rw [compOccurs_obj]
          constructor
          · rintro ((⟨h1, h2⟩ | hF) | ⟨kv, hkv, h⟩)
            · exact Or.inl ⟨h1, h2⟩
            · exact hF.elim
            · exact Or.inr ⟨kv, hkv, h⟩
          · rintro (⟨h1, h2⟩ | ⟨kv, hkv, h⟩)
            · exact Or.inl (Or.inl ⟨h1, h2⟩)
            · exact Or.inr ⟨kv, hkv, h⟩
        · intro x
          constructor
          · rintro ((hF | ⟨attrs, v, p, h1, hmem, hfind⟩) | ⟨kv, hkv, p, v, hd⟩)
            · exact hF.elim
            · exact ⟨p, v, (dirOccurs_obj prefixes fields p x v).mpr
                (Or.inl ⟨attrs, h1, hmem, hfind⟩)⟩
            · exact ⟨p, v, (dirOccurs_obj prefixes fields p x v).mpr
                (Or.inr ⟨kv, hkv, hd⟩)⟩
          · rintro ⟨p, v, hd⟩
            rcases (dirOccurs_obj prefixes fields p x v).mp hd with
              ⟨attrs, h1, hmem, hfind⟩ | ⟨kv, hkv, hd2⟩
            · exact Or.inl (Or.inr ⟨attrs, v, p, h1, hmem, hfind⟩)
            · exact Or.inr ⟨kv, hkv, p, v, hd2⟩
        · intro x
          constructor
          · rintro ((hF | ⟨attrs, k, v, p, h1, hmem, hfind, hpat⟩) | ⟨kv, hkv, p, k, v, hd, hpat⟩)
            · exact hF.elim
            · exact ⟨p, k, v, (dirOccurs_obj prefixes fields p k v).mpr
                (Or.inl ⟨attrs, h1, hmem, hfind⟩), hpat⟩
            · exact ⟨p, k, v, (dirOccurs_obj prefixes fields p k v).mpr
                (Or.inr ⟨kv, hkv, hd⟩), hpat⟩
          · rintro ⟨p, k, v, hd, hpat⟩
            rcases (dirOccurs_obj prefixes fields p k v).mp hd with
              ⟨attrs, h1, hmem, hfind⟩ | ⟨kv, hkv, hd2⟩
            · exact Or.inl (Or.inr ⟨attrs, k, v, p, h1, hmem, hfind, hpat⟩)
            · exact Or.inr ⟨kv, hkv, p, k, v, hd2, hpat⟩
        · intro x
          constructor
          · rintro ((hF | ⟨attrs, k, v, p, h1, hmem, hfind, hval⟩) | ⟨kv, hkv, p, k, v, hd, hval⟩)
            · exact hF.elim
            · exact ⟨p, k, v, (dirOccurs_obj prefixes fields p k v).mpr
                (Or.inl ⟨attrs, h1, hmem, hfind⟩), hval⟩
            · exact ⟨p, k, v, (dirOccurs_obj prefixes fields p k v).mpr
                (Or.inr ⟨kv, hkv, hd⟩), hval⟩
          · rintro ⟨p, k, v, hd, hval⟩
            rcases (dirOccurs_obj prefixes fields p k v).mp hd with
              ⟨attrs, h1, hmem, hfind⟩ | ⟨kv, hkv, hd2⟩
            · exact Or.inl (Or.inr ⟨attrs, k, v, p, h1, hmem, hfind, hval⟩)
            · exact Or.inr ⟨kv, hkv, p, k, v, hd2, hval⟩
      | some ch =>
        have hchmem : (("children" : String), ch) ∈ fields := lookupField_mem _ _ _ hch
        have hchsz : sizeOf ch < n := by simpa using hszf ("children", ch) hchmem
        have hstep :=
          stepChar_comp
            (stepChar_comp
              (stepChar_comp (typeStep_char fields st)
                (attrStep_char prefixes fields (typeStep fields st)))
              (IH (sizeOf ch) hchsz ch le_rfl (attrStep prefixes fields (typeStep fields st))))
            (hfieldsC fields hszf
              (traverse_json_tree prefixes ch (attrStep prefixes fields (typeStep fields st))))
        refine stepChar_congr hstep ?_ ?_ ?_ ?_
        · intro x
          rw [compOccurs_obj]
          constructor
          · rintro (((⟨h1, h2⟩ | hF) | hc) | ⟨kv, hkv, h⟩)
            · exact Or.inl ⟨h1, h2⟩
            · exact hF.elim
            · exact Or.inr ⟨("children", ch), hchmem, hc⟩
            · exact Or.inr ⟨kv, hkv, h⟩
          · rintro (⟨h1, h2⟩ | ⟨kv, hkv, h⟩)
            · exact Or.inl (Or.inl (Or.inl ⟨h1, h2⟩))
            · exact Or.inr ⟨kv, hkv, h⟩
        · intro x
          constructor
          · rintro (((hF | ⟨attrs, v, p, h1, hmem, hfind⟩) | ⟨p, v, hd⟩) | ⟨kv, hkv, p, v, hd⟩)
            · exact hF.elim
            · exact ⟨p, v, (dirOccurs_obj prefixes fields p x v).mpr
                (Or.inl ⟨attrs, h1, hmem, hfind⟩)⟩
            · exact ⟨p, v, (dirOccurs_obj prefixes fields p x v).mpr
                (Or.inr ⟨("children", ch), hchmem, hd⟩)⟩
            · exact ⟨p, v, (dirOccurs_obj prefixes fields p x v).mpr
                (Or.inr ⟨kv, hkv, hd⟩)⟩
          · rintro ⟨p, v, hd⟩
            rcases (dirOccurs_obj prefixes fields p x v).mp hd with
              ⟨attrs, h1, hmem, hfind⟩ | ⟨kv, hkv, hd2⟩
            · exact Or.inl (Or.inl (Or.inr ⟨attrs, v, p, h1, hmem, hfind⟩))
            · exact Or.inr ⟨kv, hkv, p, v, hd2⟩
        · intro x
          constructor
          · rintro (((hF | ⟨attrs, k, v, p, h1, hmem, hfind, hpat⟩) | ⟨p, k, v, hd, hpat⟩) |
              ⟨kv, hkv, p, k, v, hd, hpat⟩)
            · exact hF.elim
            · exact ⟨p, k, v, (dirOccurs_obj prefixes fields p k v).mpr
                (Or.inl ⟨attrs, h1, hmem, hfind⟩), hpat⟩
            · exact ⟨p, k, v, (dirOccurs_obj prefixes fields p k v).mpr
                (Or.inr ⟨("children", ch), hchmem, hd⟩), hpat⟩
            · exact ⟨p, k, v, (dirOccurs_obj prefixes fields p k v).mpr
                (Or.inr ⟨kv, hkv, hd⟩), hpat⟩
          · rintro ⟨p, k, v, hd, hpat⟩
            rcases (dirOccurs_obj prefixes fields p k v).mp hd with
              ⟨attrs, h1, hmem, hfind⟩ | ⟨kv, hkv, hd2⟩
            · exact Or.inl (Or.inl (Or.inr ⟨attrs, k, v, p, h1, hmem, hfind, hpat⟩))
            · exact Or.inr ⟨kv, hkv, p, k, v, hd2, hpat⟩
        · intro x
          constructor
          · rintro (((hF | ⟨attrs, k, v, p, h1, hmem, hfind, hval⟩) | ⟨p, k, v, hd, hval⟩) |
              ⟨kv, hkv, p, k, v, hd, hval⟩)
            · exact hF.elim
            · exact ⟨p, k, v, (dirOccurs_obj prefixes fields p k v).mpr
                (Or.inl ⟨attrs, h1, hmem, hfind⟩), hval⟩
            · exact ⟨p, k, v, (dirOccurs_obj prefixes fields p k v).mpr
                (Or.inr ⟨("children", ch), hchmem, hd⟩), hval⟩
            · exact ⟨p, k, v, (dirOccurs_obj prefixes fields p k v).mpr
                (Or.inr ⟨kv, hkv, hd⟩), hval⟩
          · rintro ⟨p, k, v, hd, hval⟩
            rcases (dirOccurs_obj prefixes fields p k v).mp hd with
              ⟨attrs, h1, hmem, hfind⟩ | ⟨kv, hkv, hd2⟩
            · exact Or.inl (Or.inl (Or.inr ⟨attrs, k, v, p, h1, hmem, hfind, hval⟩))
            · exact Or.inr ⟨kv, hkv, p, k, v, hd2, hval⟩

/-- C8: `extract_schema_from_json` returns exactly the distinct qualifying
component type names (`type` strings starting with an uppercase letter,
excluding `Fragment`), and — for every attribute key matching a configured
directive prefix — the key, its generalized pattern (portion of the key up
to the first colon followed by `:*` when the key contains a colon,
otherwise the prefix followed by `*`) and its serialized value; each of the
four sections is sorted and duplicate-free, and with no prefixes configured
the three directive sections are empty. -/
theorem c8_schema_extraction (tree : Json) (dp : Option (List String)) :
    (∀ x, x ∈ (extract_schema_from_json tree dp).components ↔ CompOccurs tree x) ∧
    (∀ k, k ∈ (extract_schema_from_json tree dp).keys ↔
      ∃ p v, DirOccurs tree (dp.getD []) p k v) ∧
    (∀ pat, pat ∈ (extract_schema_from_json tree dp).patterns ↔
      ∃ p k v, DirOccurs tree (dp.getD []) p k v ∧ pat = genPattern p k) ∧
    (∀ s, s ∈ (extract_schema_from_json tree dp).values ↔
      ∃ p k v, DirOccurs tree (dp.getD []) p k v ∧ s = Json.serialize v) ∧
    ((extract_schema_from_json tree dp).components.Sorted strRel ∧
      (extract_schema_from_json tree dp).components.Nodup) ∧
    ((extract_schema_from_json tree dp).keys.Sorted strRel ∧
      (extract_schema_from_json tree dp).keys.Nodup) ∧
    ((extract_schema_from_json tree dp).patterns.Sorted strRel ∧
      (extract_schema_from_json tree dp).patterns.Nodup) ∧
    ((extract_schema_from_json tree dp).values.Sorted strRel ∧
      (extract_schema_from_json tree dp).values.Nodup) ∧
    (dp.getD [] = [] →
      (extract_schema_from_json tree dp).keys = [] ∧
      (extract_schema_from_json tree dp).patterns = [] ∧
      (extract_schema_from_json tree dp).values = []) := by
  obtain ⟨hc, hk, hp, hv, n1, n2, n3, n4⟩ :=
    traverse_json_tree_char (dp.getD []) (sizeOf tree) tree le_rfl ⟨[], [], [], []⟩
  have hext : extract_schema_from_json tree dp =
      { components := sortStrings (traverse_json_tree (dp.getD []) tree
          ⟨[], [], [], []⟩).components
        keys := sortStrings (traverse_json_tree (dp.getD []) tree ⟨[], [], [], []⟩).keys
        patterns := sortStrings (traverse_json_tree (dp.getD []) tree
          ⟨[], [], [], []⟩).patterns
        values := sortStrings (traverse_json_tree (dp.getD []) tree
          ⟨[], [], [], []⟩).values } := rfl
  rw [hext]
  simp only [sortStrings]
  have hmemC : ∀ x, x ∈ List.insertionSort strRel (traverse_json_tree (dp.getD []) tree
      ⟨[], [], [], []⟩).components ↔ CompOccurs tree x := by
    intro x
    rw [List.mem_insertionSort strRel, hc x]
    simp
  have hmemK : ∀ x, x ∈ List.insertionSort strRel (traverse_json_tree (dp.getD []) tree
      ⟨[], [], [], []⟩).keys ↔ ∃ p v, DirOccurs tree (dp.getD []) p x v := by
    intro x
    rw [List.mem_insertionSort strRel, hk x]
    simp
  have hmemP : ∀ x, x ∈ List.insertionSort strRel (traverse_json_tree (dp.getD []) tree
      ⟨[], [], [], []⟩).patterns ↔
      ∃ p k v, DirOccurs tree (dp.getD []) p k v ∧ x = genPattern p k := by
    intro x
    rw [List.mem_insertionSort strRel, hp x]
    simp
  have hmemV : ∀ x, x ∈ List.insertionSort strRel (traverse_json_tree (dp.getD []) tree
      ⟨[], [], [], []⟩).values ↔
      ∃ p k v, DirOccurs tree (dp.getD []) p k v ∧ x = Json.serialize v := by
    intro x
    rw [List.mem_insertionSort strRel, hv x]
    simp
  refine ⟨hmemC, hmemK, hmemP, hmemV,
    ⟨List.sorted_insertionSort strRel _,
      ((List.perm_insertionSort strRel _).nodup_iff).mpr (n1 List.nodup_nil)⟩,
    ⟨List.sorted_insertionSort strRel _,
      ((List.perm_insertionSort strRel _).nodup_iff).mpr (n2 List.nodup_nil)⟩,
    ⟨List.sorted_insertionSort strRel _,
      ((List.perm_insertionSort strRel _).nodup_iff).mpr (n3 List.nodup_nil)⟩,
    ⟨List.sorted_insertionSort strRel _,
      ((List.perm_insertionSort strRel _).nodup_iff).mpr (n4 List.nodup_nil)⟩, ?_⟩
  intro hnil
  refine ⟨?_, ?_, ?_⟩ <;> apply List.eq_nil_iff_forall_not_mem.mpr <;> intro x hxmem
  · obtain ⟨p, v, fs, attrs, hsub, hlook, hmem, hfind⟩ := (hmemK x).mp hxmem
    rw [hnil] at hfind
    exact Option.noConfusion hfind
  · obtain ⟨p, k, v, ⟨fs, attrs, hsub, hlook, hmem, hfind⟩, -⟩ := (hmemP x).mp hxmem
    rw [hnil] at hfind
    exact Option.noConfusion hfind
  · obtain ⟨p, k, v, ⟨fs, attrs, hsub, hlook, hmem, hfind⟩, -⟩ := (hmemV x).mp hxmem
    rw [hnil] at hfind
    exact Option.noConfusion hfind

/-- Witness for C8 at a concrete one-node tree with no configured
prefixes: the component name is collected and the directive sections are
empty. -/
theorem c8_witness :
    "Button" ∈ (extract_schema_from_json
        (Json.obj [("type", Json.str "Button")]) none).components ∧
    (extract_schema_from_json (Json.obj [("type", Json.str "Button")]) none).keys = [] :=
  ⟨((c8_schema_extraction (Json.obj [("type", Json.str "Button")]) none).1 "Button").mpr
      ⟨[("type", Json.str "Button")], SubJson.refl _, rfl, by decide⟩,
    ((c8_schema_extraction
        (Json.obj [("type", Json.str "Button")]) none).2.2.2.2.2.2.2.2 rfl).1⟩

end Dinja
